import Mathlib

/-!
Shallow embedding, in Lean 4, of the relativistic ray-tracing core of the
`cosmic_comm` package: `physics/metric.py` (KerrBlackHole),
`physics/perturbation.py` (MassPerturbation), `physics/geodesics.py`
(GeodesicTracer) and `simulation/universe.py` (CosmicUniverse aggregation).

Python floats are modelled by `F := Option ℝ`: `some x` is a finite value and
`none` stands for a non-finite value (NaN or an infinity).  Arithmetic
propagates `none`, division by zero yields `none`, and every comparison in
which one side is `none` is false, matching IEEE NaN comparison semantics.
Python dictionaries returned by the aggregation layer are modelled as
association lists `List (String × F)` in insertion order.
-/

noncomputable section

open scoped Classical

/-- A Python float: `some x` is finite, `none` is non-finite (nan or inf). -/
abbrev F : Type := Option ℝ

/-- Float addition; non-finite operands propagate. -/
def fadd : F → F → F
  | some a, some b => some (a + b)
  | _, _ => none

/-- Float subtraction; non-finite operands propagate. -/
def fsub : F → F → F
  | some a, some b => some (a - b)
  | _, _ => none

/-- Float multiplication; non-finite operands propagate. -/
def fmul : F → F → F
  | some a, some b => some (a * b)
  | _, _ => none

/-- Float division: division by zero is non-finite, as in IEEE arithmetic. -/
def fdiv : F → F → F
  | some a, some b => if b = 0 then none else some (a / b)
  | _, _ => none

/-- Float negation. -/
def fneg : F → F
  | some a => some (-a)
  | none => none

/-- Float absolute value. -/
def fabs : F → F
  | some a => some |a|
  | none => none

/-- Float square root: the square root of a negative number is NaN. -/
def fsqrt : F → F
  | some a => if a < 0 then none else some (Real.sqrt a)
  | none => none

/-- Python `max(x, y)` on floats, propagating a non-finite argument. -/
def fmax : F → F → F
  | some a, some b => some (max a b)
  | _, _ => none

/-- Float `<`: false whenever either side is non-finite (NaN semantics). -/
def flt : F → F → Prop
  | some a, some b => a < b
  | _, _ => False

/-- Float `>`, defined from `flt` as in the source comparisons. -/
def fgt (x y : F) : Prop := flt y x

@[simp] theorem fadd_some (a b : ℝ) : fadd (some a) (some b) = some (a + b) := rfl

@[simp] theorem fadd_none_left (x : F) : fadd none x = none := by cases x <;> rfl

@[simp] theorem fadd_none_right (x : F) : fadd x none = none := by cases x <;> rfl

@[simp] theorem fsub_some (a b : ℝ) : fsub (some a) (some b) = some (a - b) := rfl

@[simp] theorem fsub_none_left (x : F) : fsub none x = none := by cases x <;> rfl

@[simp] theorem fsub_none_right (x : F) : fsub x none = none := by cases x <;> rfl

@[simp] theorem fmul_some (a b : ℝ) : fmul (some a) (some b) = some (a * b) := rfl

@[simp] theorem fmul_none_left (x : F) : fmul none x = none := by cases x <;> rfl

@[simp] theorem fmul_none_right (x : F) : fmul x none = none := by cases x <;> rfl

@[simp] theorem fneg_some (a : ℝ) : fneg (some a) = some (-a) := rfl

@[simp] theorem fneg_none : fneg none = none := rfl

@[simp] theorem fabs_some (a : ℝ) : fabs (some a) = some |a| := rfl

@[simp] theorem fabs_none : fabs none = none := rfl

@[simp] theorem fmax_some (a b : ℝ) : fmax (some a) (some b) = some (max a b) := rfl

theorem fdiv_some {b : ℝ} (a : ℝ) (hb : b ≠ 0) :
    fdiv (some a) (some b) = some (a / b) := by
  simp [fdiv, hb]

@[simp] theorem fdiv_none_left (x : F) : fdiv none x = none := by cases x <;> rfl

@[simp] theorem fdiv_none_right (x : F) : fdiv x none = none := by cases x <;> rfl

theorem fsqrt_some {a : ℝ} (ha : 0 ≤ a) : fsqrt (some a) = some (Real.sqrt a) := by
  simp [fsqrt, not_lt.mpr ha]

@[simp] theorem flt_some (a b : ℝ) : flt (some a) (some b) ↔ a < b := Iff.rfl

@[simp] theorem flt_none_left (x : F) : ¬ flt none x := by cases x <;> simp [flt]

@[simp] theorem flt_none_right (x : F) : ¬ flt x none := by cases x <;> simp [flt]

@[simp] theorem fgt_some (a b : ℝ) : fgt (some a) (some b) ↔ b < a := Iff.rfl

@[simp] theorem fgt_none_left (x : F) : ¬ fgt none x := by cases x <;> simp [fgt, flt]

@[simp] theorem fgt_none_right (x : F) : ¬ fgt x none := by cases x <;> simp [fgt, flt]

theorem fadd_eq_some {x y : F} {z : ℝ} :
    fadd x y = some z ↔ ∃ a b, x = some a ∧ y = some b ∧ z = a + b := by
  cases x <;> cases y <;> simp [fadd, eq_comm]

theorem fsub_eq_some {x y : F} {z : ℝ} :
    fsub x y = some z ↔ ∃ a b, x = some a ∧ y = some b ∧ z = a - b := by
  cases x <;> cases y <;> simp [fsub, eq_comm]

theorem fmul_eq_some {x y : F} {z : ℝ} :
    fmul x y = some z ↔ ∃ a b, x = some a ∧ y = some b ∧ z = a * b := by
  cases x <;> cases y <;> simp [fmul, eq_comm]

theorem fdiv_eq_some {x y : F} {z : ℝ} :
    fdiv x y = some z ↔ ∃ a b, x = some a ∧ y = some b ∧ b ≠ 0 ∧ z = a / b := by
  cases x with
  | none => simp
  | some a =>
    cases y with
    | none => simp
    | some b =>
      by_cases hb : b = 0 <;> simp [fdiv, hb, eq_comm]

theorem fneg_eq_some {x : F} {z : ℝ} :
    fneg x = some z ↔ ∃ a, x = some a ∧ z = -a := by
  cases x <;> simp [fneg, eq_comm]

theorem fabs_eq_some {x : F} {z : ℝ} :
    fabs x = some z ↔ ∃ a, x = some a ∧ z = |a| := by
  cases x <;> simp [fabs, eq_comm]

/-- The 8-component photon state (or state derivative)
`[t, r, θ, φ, p_t, p_r, p_θ, p_φ]`. -/
@[ext]
structure V8 where
  t : F
  r : F
  th : F
  ph : F
  pt : F
  pr : F
  pth : F
  pph : F

/-- The all-NaN state `np.full_like(state, np.nan)`. -/
def nanV8 : V8 := ⟨none, none, none, none, none, none, none, none⟩

/-- Embeds `np.all(np.isfinite(state))`: every component is finite. -/
def allFinite (s : V8) : Prop :=
  s.t.isSome ∧ s.r.isSome ∧ s.th.isSome ∧ s.ph.isSome ∧
    s.pt.isSome ∧ s.pr.isSome ∧ s.pth.isSome ∧ s.pph.isSome

theorem not_allFinite_nanV8 : ¬ allFinite nanV8 := by
  intro h
  simpa [nanV8] using h.1

/-- Componentwise vector addition. -/
def vadd (x y : V8) : V8 :=
  ⟨fadd x.t y.t, fadd x.r y.r, fadd x.th y.th, fadd x.ph y.ph,
   fadd x.pt y.pt, fadd x.pr y.pr, fadd x.pth y.pth, fadd x.pph y.pph⟩

/-- Scalar (finite float) times vector. -/
def vsmul (c : ℝ) (x : V8) : V8 :=
  ⟨fmul (some c) x.t, fmul (some c) x.r, fmul (some c) x.th, fmul (some c) x.ph,
   fmul (some c) x.pt, fmul (some c) x.pr, fmul (some c) x.pth, fmul (some c) x.pph⟩

/-- Embeds `KerrBlackHole` dataclass attributes (after `__post_init__`). -/
structure KerrBlackHole where
  M : ℝ
  a : ℝ
  eps : ℝ

/-- Embeds `np.sign` on a float. -/
def sgn (x : ℝ) : ℝ := if x < 0 then -1 else if x = 0 then 0 else 1

/-- Embeds `KerrBlackHole(M, a)` construction including `__post_init__`: fails (raises
`ValueError`) iff `M ≤ 0`; clamps the spin to `sign(a) * M * 0.99` when
`|a| > M` (cosmic censorship), with the default numerical floor `eps = 1e-9`. -/
def mkKerr (M a : ℝ) : Option KerrBlackHole :=
  if M ≤ 0 then none
  else some ⟨M, if M < |a| then sgn a * M * (99 / 100) else a, 1e-9⟩

/-- Embeds `safe_delta`: `Delta if abs(Delta) > eps else (eps if Delta >= 0 else -eps)`. -/
def safeDelta (eps Delta : ℝ) : ℝ :=
  if eps < |Delta| then Delta else if 0 ≤ Delta then eps else -eps

/-- Result of `KerrBlackHole.inverse_metric_components`. -/
structure GInv where
  tt : F
  tphi : F
  rr : F
  thth : F
  phiphi : F
  Sigma : ℝ
  Delta : ℝ
  safe_delta : ℝ
  safe_sin2 : ℝ

/-- Embeds `KerrBlackHole.inverse_metric_components(r, theta)`.  The divisions are
performed in `F`, so a vanishing `Sigma` (or a vanishing floored denominator)
produces a non-finite component, as numpy float division does. -/
def inverse_metric_components (bh : KerrBlackHole) (r theta : ℝ) : GInv :=
  let Sigma := r ^ 2 + (bh.a * Real.cos theta) ^ 2
  let Delta := r ^ 2 - 2 * bh.M * r + bh.a ^ 2
  let sin2 := Real.sin theta ^ 2
  let sd := safeDelta bh.eps Delta
  let ss2 := if bh.eps < sin2 then sin2 else bh.eps
  { tt := fdiv (some (-((r ^ 2 + bh.a ^ 2) ^ 2 - sd * bh.a ^ 2 * ss2))) (some (sd * Sigma))
    tphi := fdiv (some (-(2 * bh.M * bh.a * r))) (some (sd * Sigma))
    rr := fdiv (some sd) (some Sigma)
    thth := fdiv (some 1) (some Sigma)
    phiphi := fdiv (some (sd - bh.a ^ 2 * ss2)) (some (sd * Sigma * ss2))
    Sigma := Sigma
    Delta := Delta
    safe_delta := sd
    safe_sin2 := ss2 }

/-- Result of `KerrBlackHole.metric_components` (covariant components). -/
structure GCov where
  tt : F
  tphi : F
  rr : F
  thth : ℝ
  phiphi : F
  Sigma : ℝ
  Delta : ℝ

/-- Embeds `KerrBlackHole.metric_components(r, theta)`. -/
def metric_components (bh : KerrBlackHole) (r theta : ℝ) : GCov :=
  let Sigma := r ^ 2 + (bh.a * Real.cos theta) ^ 2
  let Delta := r ^ 2 - 2 * bh.M * r + bh.a ^ 2
  let sin2 := Real.sin theta ^ 2
  let sd := safeDelta bh.eps Delta
  { tt := fneg (fsub (some 1) (fdiv (some (2 * bh.M * r)) (some Sigma)))
    tphi := fneg (fdiv (some (2 * bh.M * bh.a * r * sin2)) (some Sigma))
    rr := fdiv (some Sigma) (some sd)
    thth := Sigma
    phiphi := fmul (fsub (some ((r ^ 2 + bh.a ^ 2) ^ 2)) (some (Delta * bh.a ^ 2 * sin2)))
      (fdiv (some sin2) (some Sigma))
    Sigma := Sigma
    Delta := Delta }

/-- The Hamiltonian `H = 1/2 g^{μν} p_μ p_ν` evaluated with the inverse metric
at `(r, θ)` and the given covariant momenta, exactly as the sum is written in
`null_constraint` and in `_numerical_derivative_H.get_H`. -/
def hamiltonianAt (bh : KerrBlackHole) (r theta : ℝ) (pt pr pth pph : F) : F :=
  let g := inverse_metric_components bh r theta
  fmul (some (1 / 2))
    (fadd
      (fadd
        (fadd
          (fadd (fmul g.tt (fmul pt pt)) (fmul (fmul (fmul (some 2) g.tphi) pt) pph))
          (fmul g.rr (fmul pr pr)))
        (fmul g.thth (fmul pth pth)))
      (fmul g.phiphi (fmul pph pph)))

/-- Embeds `KerrBlackHole.null_constraint(state)`; the source unpacks only
`r, theta` and the four momenta (`t` and `phi` are ignored). -/
def null_constraint (bh : KerrBlackHole) (s : V8) : F :=
  match s.r, s.th with
  | some r, some theta => hamiltonianAt bh r theta s.pt s.pr s.pth s.pph
  | _, _ => none

/-- Embeds `KerrBlackHole._numerical_derivative_H(..., 'r')`: centered difference of
`H` in `r` with step `eps = 1e-5`. -/
def dHdr (bh : KerrBlackHole) (r theta : ℝ) (pt pr pth pph : F) : F :=
  fdiv
    (fsub (hamiltonianAt bh (r + 1e-5) theta pt pr pth pph)
      (hamiltonianAt bh (r - 1e-5) theta pt pr pth pph))
    (some (2 * 1e-5))

/-- Embeds `KerrBlackHole._numerical_derivative_H(..., 'theta')`. -/
def dHdth (bh : KerrBlackHole) (r theta : ℝ) (pt pr pth pph : F) : F :=
  fdiv
    (fsub (hamiltonianAt bh r (theta + 1e-5) pt pr pth pph)
      (hamiltonianAt bh r (theta - 1e-5) pt pr pth pph))
    (some (2 * 1e-5))

/-- Embeds `KerrBlackHole.derivatives(state)`: Hamilton equations of motion.  The
momentum-derivative slots conjugate to `t` and `phi` are the literal constant
`0.0` in the source (stationarity and axisymmetry of the unperturbed metric),
even when other components are non-finite; `dp_r` and `dp_θ` come from the
centered numerical differentiation of `H`. -/
def derivatives (bh : KerrBlackHole) (s : V8) : V8 :=
  match s.r, s.th with
  | some r, some theta =>
    let g := inverse_metric_components bh r theta
    ⟨fadd (fmul g.tt s.pt) (fmul g.tphi s.pph),
     fmul g.rr s.pr,
     fmul g.thth s.pth,
     fadd (fmul g.tphi s.pt) (fmul g.phiphi s.pph),
     some 0,
     fneg (dHdr bh r theta s.pt s.pr s.pth s.pph),
     fneg (dHdth bh r theta s.pt s.pr s.pth s.pph),
     some 0⟩
  | _, _ => ⟨none, none, none, none, some 0, none, none, some 0⟩

@[simp] theorem derivatives_pt (bh : KerrBlackHole) (s : V8) :
    (derivatives bh s).pt = some 0 := by
  unfold derivatives
  cases s.r <;> cases s.th <;> rfl

@[simp] theorem derivatives_pph (bh : KerrBlackHole) (s : V8) :
    (derivatives bh s).pph = some 0 := by
  unfold derivatives
  cases s.r <;> cases s.th <;> rfl

/-- Embeds `MassPerturbation` attributes, including the cached Cartesian position. -/
structure MassPerturbation where
  r : ℝ
  theta : ℝ
  phi : ℝ
  mass : ℝ
  force_scale : ℝ
  softening : ℝ
  eps : ℝ
  posx : ℝ
  posy : ℝ
  posz : ℝ

/-- Embeds `MassPerturbation._to_cartesian(r, theta, phi)`. -/
def toCartesian (r theta phi : ℝ) : ℝ × ℝ × ℝ :=
  (r * Real.sin theta * Real.cos phi, r * Real.sin theta * Real.sin phi, r * Real.cos theta)

/-- Embeds `MassPerturbation.__init__`: floors the softening at `eps` and caches the
Cartesian position. -/
def mkPerturbation (r theta phi mass force_scale softening eps : ℝ) : MassPerturbation :=
  let p := toCartesian r theta phi
  ⟨r, theta, phi, mass, force_scale, max softening eps, eps, p.1, p.2.1, p.2.2⟩

/-- A 4-component force vector `[F_t, F_r, F_θ, F_φ]` aligned with the
momentum-derivative slots. -/
structure F4 where
  ft : F
  fr : F
  fth : F
  fph : F

/-- Componentwise addition of force vectors (`total_force += f`). -/
def f4add (x y : F4) : F4 :=
  ⟨fadd x.ft y.ft, fadd x.fr y.fr, fadd x.fth y.fth, fadd x.fph y.fph⟩

/-- Embeds `MassPerturbation.get_force(photon_state)`.  The time slot is the literal
constant `0.0` in the source.  A non-finite photon position makes the three
spatial slots non-finite (NaN arithmetic), while the time slot stays `0.0`. -/
def get_force (p : MassPerturbation) (s : V8) : F4 :=
  match s.r, s.th, s.ph with
  | some rp, some thp, some php =>
    let pos := toCartesian rp thp php
    let dx := p.posx - pos.1
    let dy := p.posy - pos.2.1
    let dz := p.posz - pos.2.2
    let dist0 := Real.sqrt (dx ^ 2 + dy ^ 2 + dz ^ 2)
    let dist := if dist0 < p.softening then p.softening else dist0
    let strength := fdiv (some (p.force_scale * p.mass)) (some (dist ^ 2))
    let fcx := fmul strength (fdiv (some dx) (some dist))
    let fcy := fmul strength (fdiv (some dy) (some dist))
    let fcz := fmul strength (fdiv (some dz) (some dist))
    let sin_th := Real.sin thp
    let cos_th := Real.cos thp
    let sin_phi := Real.sin php
    let cos_phi := Real.cos php
    let dotr := fadd (fadd (fmul fcx (some (sin_th * cos_phi))) (fmul fcy (some (sin_th * sin_phi)))) (fmul fcz (some cos_th))
    let dotth := fadd (fadd (fmul fcx (some (cos_th * cos_phi))) (fmul fcy (some (cos_th * sin_phi)))) (fmul fcz (some (-sin_th)))
    let dotphi := fadd (fadd (fmul fcx (some (-sin_phi))) (fmul fcy (some cos_phi))) (fmul fcz (some 0))
    let safe_r := max |rp| p.eps
    let safe_sin := max |sin_th| p.eps
    ⟨some 0, dotr, fdiv dotth (some safe_r), fdiv dotphi (some (safe_r * safe_sin))⟩
  | _, _, _ => ⟨some 0, none, none, none⟩

@[simp] theorem get_force_ft (p : MassPerturbation) (s : V8) :
    (get_force p s).ft = some 0 := by
  unfold get_force
  cases s.r <;> cases s.th <;> cases s.ph <;> rfl

/-- Embeds `GeodesicTracer` attributes, including the horizon radius cached by
`__init__`. -/
structure GeodesicTracer where
  metric : KerrBlackHole
  dt : ℝ
  perturbations : List MassPerturbation
  null_tolerance : ℝ
  max_radius_factor : ℝ
  capture_margin : ℝ
  r_horizon : ℝ

/-- The outer-horizon radius `M + sqrt(M^2 - a^2)` as computed by
`GeodesicTracer.__init__`. -/
def rHorizon (bh : KerrBlackHole) : ℝ := bh.M + Real.sqrt (bh.M ^ 2 - bh.a ^ 2)

/-- Embeds `GeodesicTracer.__init__`. -/
def mkTracer (metric : KerrBlackHole) (step_size : ℝ) (perturbations : List MassPerturbation)
    (null_tolerance max_radius_factor capture_margin : ℝ) : GeodesicTracer :=
  ⟨metric, step_size, perturbations, null_tolerance, max_radius_factor, capture_margin,
   rHorizon metric⟩

/-- The per-stage derivative function `dynamics` of `GeodesicTracer._rk4_step`:
the metric's Hamiltonian flow plus the summed perturbation forces added into
the four momentum-derivative slots; a non-finite input yields the all-NaN
vector. -/
def dynamics (tr : GeodesicTracer) (s : V8) : V8 :=
  if allFinite s then
    let d := derivatives tr.metric s
    let tf := tr.perturbations.foldl (fun acc p => f4add acc (get_force p s))
      ⟨some 0, some 0, some 0, some 0⟩
    ⟨d.t, d.r, d.th, d.ph, fadd d.pt tf.ft, fadd d.pr tf.fr, fadd d.pth tf.fth,
     fadd d.pph tf.fph⟩
  else nanV8

/-- RK4 stage `k1 = f(y_n)`. -/
def rk4k1 (tr : GeodesicTracer) (s : V8) : V8 := dynamics tr s

/-- RK4 stage `k2 = f(y_n + h/2 * k1)`. -/
def rk4k2 (tr : GeodesicTracer) (s : V8) : V8 :=
  dynamics tr (vadd s (vsmul (1 / 2 * tr.dt) (rk4k1 tr s)))

/-- RK4 stage `k3 = f(y_n + h/2 * k2)`. -/
def rk4k3 (tr : GeodesicTracer) (s : V8) : V8 :=
  dynamics tr (vadd s (vsmul (1 / 2 * tr.dt) (rk4k2 tr s)))

/-- RK4 stage `k4 = f(y_n + h * k3)`. -/
def rk4k4 (tr : GeodesicTracer) (s : V8) : V8 :=
  dynamics tr (vadd s (vsmul tr.dt (rk4k3 tr s)))

/-- The RK4 weighted update `y_n + (h/6) (k1 + 2 k2 + 2 k3 + k4)`. -/
def rk4update (tr : GeodesicTracer) (s : V8) : V8 :=
  vadd s
    (vsmul (tr.dt / 6)
      (vadd (rk4k1 tr s)
        (vadd (vsmul 2 (rk4k2 tr s)) (vadd (vsmul 2 (rk4k3 tr s)) (rk4k4 tr s)))))

/-- Embeds `GeodesicTracer._rk4_step(state)`: one RK4 step with the three finiteness
short-circuits of the source (input state, the four stage derivatives, and the
final updated state). -/
def rk4_step (tr : GeodesicTracer) (s : V8) : V8 :=
  if allFinite s then
    if allFinite (rk4k1 tr s) ∧ allFinite (rk4k2 tr s) ∧ allFinite (rk4k3 tr s) ∧
        allFinite (rk4k4 tr s) then
      if allFinite (rk4update tr s) then rk4update tr s else nanV8
    else nanV8
  else nanV8

/-- The loop-local state of `GeodesicTracer.trace` (history buffers, terminal
status before the `constraint_warning` demotion, running maximum null error,
and the soft violation flag). -/
structure RawTrace where
  ts : List F
  rs : List F
  thetas : List F
  phis : List F
  nullErrs : List F
  status : String
  maxNullError : ℝ
  violated : Prop

/-- Contribution of one recorded null error to the running
`max_null_error` (only finite values are folded in). -/
def maxContrib (e : F) (m : ℝ) : ℝ :=
  match e with
  | some v => max m v
  | none => m

/-- The integration loop of `GeodesicTracer.trace`, by recursion on the
remaining step budget.  Each iteration: stop with `numerical_error` on a
non-finite state; otherwise record the position and the null-constraint error,
update the violation flag and maximum error, test capture and escape, and
otherwise advance by one RK4 step. -/
def traceGo (tr : GeodesicTracer) : ℕ → V8 → RawTrace
  | 0, _ => ⟨[], [], [], [], [], "max_steps", 0, False⟩
  | n + 1, st =>
    if allFinite st then
      let ne := fabs (null_constraint tr.metric st)
      let violHere := fgt ne (some tr.null_tolerance)
      if flt st.r (some (tr.r_horizon * tr.capture_margin)) then
        ⟨[st.t], [st.r], [st.th], [st.ph], [ne], "captured", maxContrib ne 0, violHere⟩
      else if fgt st.r (some (tr.max_radius_factor * tr.metric.M)) then
        ⟨[st.t], [st.r], [st.th], [st.ph], [ne], "escaped", maxContrib ne 0, violHere⟩
      else
        let rest := traceGo tr n (rk4_step tr st)
        ⟨st.t :: rest.ts, st.r :: rest.rs, st.th :: rest.thetas, st.ph :: rest.phis,
         ne :: rest.nullErrs, rest.status, maxContrib ne rest.maxNullError,
         violHere ∨ rest.violated⟩
    else ⟨[], [], [], [], [], "numerical_error", 0, False⟩

/-- The trajectory record returned by `GeodesicTracer.trace`, together with
the optional tags (`ray_index`, `initial_y`, `initial_phi`) added by
`CosmicUniverse.run_beam_simulation`. -/
structure Traj where
  t : List F
  r : List F
  theta : List F
  phi : List F
  status : String
  steps : ℕ
  proper_time : ℝ
  null_constraint : List F
  initial_null_error : F
  final_null_error : F
  mean_null_error : F
  max_null_error : ℝ
  constraint_violated : Prop
  ray_index : Option ℕ
  initial_y : Option ℝ
  initial_phi : Option ℝ

/-- Float sum of a list (`np.mean` numerator); NaN entries propagate. -/
def fsum (l : List F) : F := l.foldl fadd (some 0)

/-- Embeds `np.mean` of a float array: NaN entries propagate; guarded by the caller
for emptiness. -/
def fmean (l : List F) : F :=
  if l.isEmpty then none else fdiv (fsum l) (some (l.length : ℝ))

/-- First element of the null-error history (`null_errors[0]` when non-empty,
else NaN). -/
def headF (l : List F) : F :=
  match l with
  | [] => none
  | e :: _ => e

/-- Last element of the null-error history (`null_errors[-1]` when non-empty,
else NaN). -/
def lastF (l : List F) : F := (l.getLast?).join

/-- Embeds `GeodesicTracer.trace(initial_state, max_steps)`: runs the loop, demotes a
`max_steps` termination to `constraint_warning` when the soft violation flag
was ever set, and assembles the trajectory record. -/
def trace (tr : GeodesicTracer) (initial_state : V8) (max_steps : ℕ) : Traj :=
  let raw := traceGo tr max_steps initial_state
  { t := raw.ts
    r := raw.rs
    theta := raw.thetas
    phi := raw.phis
    status := if raw.violated ∧ raw.status = "max_steps" then "constraint_warning"
      else raw.status
    steps := raw.ts.length
    proper_time := (raw.ts.length : ℝ) * tr.dt
    null_constraint := raw.nullErrs
    initial_null_error := headF raw.nullErrs
    final_null_error := lastF raw.nullErrs
    mean_null_error := fmean raw.nullErrs
    max_null_error := raw.maxNullError
    constraint_violated := raw.violated
    ray_index := none
    initial_y := none
    initial_phi := none }

/-- The default azimuthal momentum of `GeodesicTracer.initialize_photon`:
`float(L) if L != 0.0 else 4.0`. -/
def photonPphi0 (L : ℝ) : ℝ := if L = 0 then 4 else L

/-- The radial inverse-metric coefficient `A = g^rr` used by the null-condition
quadratic `A p_r^2 + B = 0`. -/
def photonA (bh : KerrBlackHole) (r theta : ℝ) : F :=
  (inverse_metric_components bh r theta).rr

/-- The constant term `B` of the null-condition quadratic at a given azimuthal
momentum, exactly as the sum is written in `initialize_photon` (with
`p_θ = 0`): `g^tt p_t² + 2 g^tφ p_t p_φ + g^θθ p_θ² + g^φφ p_φ²`. -/
def photonB0 (bh : KerrBlackHole) (r theta pt pphi : ℝ) : F :=
  let g := inverse_metric_components bh r theta
  fadd
    (fadd
      (fadd (fmul g.tt (some (pt ^ 2)))
        (fmul (fmul (fmul (some 2) g.tphi) (some pt)) (some pphi)))
      (fmul g.thth (some ((0 : ℝ) ^ 2))))
    (fmul g.phiphi (some (pphi ^ 2)))

/-- The fallback test of `initialize_photon`: `-B/A < 0` (forbidden region for
the requested angular momentum), in which case the initializer zeroes `p_φ`
and recomputes `B = g^tt p_t²`. -/
def photonFallback (bh : KerrBlackHole) (r theta pt L : ℝ) : Prop :=
  flt (fdiv (fneg (photonB0 bh r theta pt (photonPphi0 L))) (photonA bh r theta)) (some 0)

/-- The azimuthal momentum finally stored in the state by
`initialize_photon`. -/
def photonPphiFinal (bh : KerrBlackHole) (r theta pt L : ℝ) : ℝ :=
  if photonFallback bh r theta pt L then 0 else photonPphi0 L

/-- The constant term `B` finally used by `initialize_photon`. -/
def photonBFinal (bh : KerrBlackHole) (r theta pt L : ℝ) : F :=
  if photonFallback bh r theta pt L then
    fmul (inverse_metric_components bh r theta).tt (some (pt ^ 2))
  else photonB0 bh r theta pt (photonPphi0 L)

/-- Embeds `pr_sq = -B / A` as solved by `initialize_photon` after the possible
angular-momentum fallback. -/
def photonPrSq (bh : KerrBlackHole) (r theta pt L : ℝ) : F :=
  fdiv (fneg (photonBFinal bh r theta pt L)) (photonA bh r theta)

/-- Embeds `GeodesicTracer.initialize_photon(r, theta, phi, E, L, Q, direction)`:
`none` models the two `ValueError` raises (near-singular radial coefficient,
and negative `pr_sq` beyond the `-1e-10` tolerance); otherwise the state with
`p_t = -|E|`, `p_θ = 0`, the (possibly fallen-back) `p_φ`, and
`p_r = ±sqrt(max(pr_sq, 0))` signed by `direction`. -/
def initialize_photon (tr : GeodesicTracer) (r theta phi E L Q : ℝ) (direction : ℤ) :
    Option V8 :=
  let bh := tr.metric
  let _g := metric_components bh r theta
  let _Q := Q
  let pt := -|E|
  if flt (fabs (photonA bh r theta)) (some 1e-12) then none
  else if flt (photonPrSq bh r theta pt L) (some (-1e-10)) then none
  else
    let pr0 := fsqrt (fmax (photonPrSq bh r theta pt L) (some 0))
    some ⟨some 0, some r, some theta, some phi, some pt,
      if direction < 0 then fneg pr0 else pr0, some 0,
      some (photonPphiFinal bh r theta pt L)⟩

/-- Embeds `np.arctan2(y, x)` (piecewise, matching the numpy convention with
`arctan2(0, 0) = 0`). -/
def arctan2 (y x : ℝ) : ℝ :=
  if 0 < x then Real.arctan (y / x)
  else if x < 0 then
    (if y < 0 then Real.arctan (y / x) - Real.pi else Real.arctan (y / x) + Real.pi)
  else if 0 < y then Real.pi / 2
  else if y < 0 then -(Real.pi / 2)
  else 0

/-- The constant term `B` of the null-condition quadratic solved by
`CosmicUniverse._initialize_parallel_ray` (with `p_φ = y`, `p_θ = 0`). -/
def parallelB (bh : KerrBlackHole) (start_x y theta energy : ℝ) : F :=
  photonB0 bh (Real.sqrt (start_x ^ 2 + y ^ 2)) theta (-|energy|) y

/-- Embeds `pr_sq = -B / A` as solved by `_initialize_parallel_ray`. -/
def parallelPrSq (bh : KerrBlackHole) (start_x y theta energy : ℝ) : F :=
  fdiv (fneg (parallelB bh start_x y theta energy))
    (photonA bh (Real.sqrt (start_x ^ 2 + y ^ 2)) theta)

/-- Embeds `CosmicUniverse._initialize_parallel_ray(start_x, y, theta, energy)`:
`none` models the two `return None` branches; otherwise the inward state at
`r = sqrt(start_x² + y²)`, `φ = arctan2(y, start_x)` with `p_t = -|energy|`,
`p_φ = y`, `p_θ = 0` and `p_r = -sqrt(max(pr_sq, 0))`. -/
def initializeParallelRay (bh : KerrBlackHole) (start_x y theta energy : ℝ) : Option V8 :=
  let r := Real.sqrt (start_x ^ 2 + y ^ 2)
  let phi := arctan2 y start_x
  let pt := -|energy|
  if flt (fabs (photonA bh r theta)) (some 1e-12) then none
  else if flt (parallelPrSq bh start_x y theta energy) (some (-1e-10)) then none
  else
    some ⟨some 0, some r, some theta, some phi, some pt,
      fneg (fsqrt (fmax (parallelPrSq bh start_x y theta energy) (some 0))), some 0,
      some y⟩

/-- Embeds `CosmicUniverse._deflection_angle(traj)`: final recorded `φ` minus the
tagged `initial_phi` (defaulting to the first recorded `φ`); NaN when the
trajectory recorded no point. -/
def deflection (t : Traj) : F :=
  match t.phi.getLast?, t.phi.head? with
  | some lastPhi, some headPhi =>
    fsub lastPhi (match t.initial_phi with
      | some v => some v
      | none => headPhi)
  | _, _ => none

/-- Embeds `np.nanmean` of a float array: the mean of the finite entries, NaN when
there is none. -/
def fnanmean (l : List F) : F :=
  match l.filterMap id with
  | [] => none
  | x :: xs => some ((x :: xs).sum / ((x :: xs).length : ℝ))

/-- Maximum of a (real) list, `none` on the empty list; used for the
`np.nanmax` of arrays whose entries are all finite after filtering. -/
def listMax (l : List ℝ) : Option ℝ :=
  match l with
  | [] => none
  | x :: xs => some (xs.foldl max x)

/-- Embeds `np.nanmax` of a float array: the maximum of the finite entries, NaN when
there is none. -/
def fnanmax (l : List F) : F := listMax (l.filterMap id)

/-- Embeds `CosmicUniverse.summarize_trajectories(trajectories)` as an association
list in the source's dictionary insertion order.  The empty input returns the
fixed zeroed summary of the source (which contains no
`mean_signed_deflection` entry). -/
def summarize (trajectories : List Traj) : List (String × F) :=
  if trajectories.length = 0 then
    [("total_rays", some 0),
     ("captured_fraction", some 0),
     ("escaped_fraction", some 0),
     ("max_steps_fraction", some 0),
     ("numerical_error_fraction", some 0),
     ("constraint_warning_fraction", some 0),
     ("constraint_violation_fraction", some 0),
     ("mean_abs_deflection", none),
     ("max_abs_deflection", none),
     ("mean_steps", none),
     ("mean_proper_time", none),
     ("mean_null_error", none),
     ("mean_final_null_error", none),
     ("max_null_error", none)]
  else
    let total := (trajectories.length : ℝ)
    let deflections := trajectories.map deflection
    let absDefl : List ℝ := deflections.filterMap (fun d => Option.map abs d)
    let countStatus := fun (st : String) =>
      ((trajectories.filter (fun tr => tr.status = st)).length : ℝ)
    [("total_rays", some total),
     ("captured_fraction", some (countStatus "captured" / total)),
     ("escaped_fraction", some (countStatus "escaped" / total)),
     ("max_steps_fraction", some (countStatus "max_steps" / total)),
     ("numerical_error_fraction", some (countStatus "numerical_error" / total)),
     ("constraint_warning_fraction", some (countStatus "constraint_warning" / total)),
     ("constraint_violation_fraction",
       some (((trajectories.filter (fun tr => tr.constraint_violated)).length : ℝ) / total)),
     ("mean_abs_deflection",
       if absDefl.isEmpty then none else some (absDefl.sum / (absDefl.length : ℝ))),
     ("max_abs_deflection", listMax absDefl),
     ("mean_signed_deflection", fnanmean deflections),
     ("mean_steps", fnanmean (trajectories.map (fun tr => some (tr.steps : ℝ)))),
     ("mean_proper_time", fnanmean (trajectories.map (fun tr => some tr.proper_time))),
     ("mean_null_error", fnanmean (trajectories.map (fun tr => tr.mean_null_error))),
     ("mean_final_null_error", fnanmean (trajectories.map (fun tr => tr.final_null_error))),
     ("max_null_error", listMax (trajectories.map (fun tr => tr.max_null_error)))]

/-- Dictionary lookup in a summary or comparison association list. -/
def getField (s : List (String × F)) (k : String) : F := (s.lookup k).join

/-- The ray indices present in a record list (records without a `ray_index`
tag are dropped, as in the source's dictionary comprehension). -/
def keysOf (l : List Traj) : List ℕ := l.filterMap (fun t => t.ray_index)

/-- Python-dictionary lookup by ray index: with duplicate indices the last
record wins, as in the source's comprehension. -/
def dictLookup (l : List Traj) (k : ℕ) : Option Traj :=
  (l.filter (fun t => t.ray_index = some k)).getLast?

/-- Embeds `sorted(set(baseline).intersection(perturbed))`: the sorted deduplicated
list of ray indices present in both record sets. -/
def commonKeys (b p : List Traj) : List ℕ :=
  (((keysOf b).filter (fun k => k ∈ keysOf p)).dedup).insertionSort (· ≤ ·)

/-- The signed per-ray quantity `|deflection_perturbed| - |deflection_baseline|`
appended by `compare_trajectory_sets` for a matched ray index, defined only
when both absolute deflections are finite. -/
def signedDelta (b p : List Traj) (k : ℕ) : Option ℝ :=
  match dictLookup b k, dictLookup p k with
  | some tb, some tp =>
    match fabs (deflection tb), fabs (deflection tp) with
    | some db, some dp => some (dp - db)
    | _, _ => none
  | _, _ => none

/-- Embeds `CosmicUniverse.compare_trajectory_sets(baseline, perturbed)` as an
association list in the source's dictionary insertion order. -/
def compare_trajectory_sets (b p : List Traj) : List (String × F) :=
  let common := commonKeys b p
  if common.length = 0 then
    [("common_rays", some 0),
     ("mean_delta_abs_deflection", none),
     ("max_delta_abs_deflection", none),
     ("captured_delta", none),
     ("escaped_delta", none)]
  else
    let ds := common.filterMap (signedDelta b p)
    let summaryBase := summarize (common.filterMap (dictLookup b))
    let summaryPert := summarize (common.filterMap (dictLookup p))
    [("common_rays", some (common.length : ℝ)),
     ("mean_delta_abs_deflection",
       if ds.isEmpty then none else some (ds.sum / (ds.length : ℝ))),
     ("max_delta_abs_deflection", listMax (ds.map (fun x => |x|))),
     ("captured_delta",
       fsub (getField summaryPert "captured_fraction") (getField summaryBase "captured_fraction")),
     ("escaped_delta",
       fsub (getField summaryPert "escaped_fraction") (getField summaryBase "escaped_fraction"))]

theorem traceGo_shape (tr : GeodesicTracer) (n : ℕ) (s : V8) :
    (traceGo tr n s).ts.length = (traceGo tr n s).rs.length ∧
    (traceGo tr n s).ts.length = (traceGo tr n s).thetas.length ∧
    (traceGo tr n s).ts.length = (traceGo tr n s).phis.length ∧
    (traceGo tr n s).ts.length = (traceGo tr n s).nullErrs.length ∧
    (traceGo tr n s).ts.length ≤ n := by
  induction n generalizing s with
  | zero => simp [traceGo]
  | succ n ih =>
    by_cases h1 : allFinite s
    · by_cases h2 : flt s.r (some (tr.r_horizon * tr.capture_margin))
      · simp [traceGo, h1, h2]
      · by_cases h3 : fgt s.r (some (tr.max_radius_factor * tr.metric.M))
        · simp [traceGo, h1, h2, h3]
        · obtain ⟨ha, hb, hc, hd, he⟩ := ih (rk4_step tr s)
          simp only [traceGo, h1, h2, h3, if_true, if_false, List.length_cons]
          omega
    · simp [traceGo, h1]

theorem traceGo_status (tr : GeodesicTracer) (n : ℕ) (s : V8) :
    (traceGo tr n s).status = "max_steps" ∨ (traceGo tr n s).status = "captured" ∨
    (traceGo tr n s).status = "escaped" ∨ (traceGo tr n s).status = "numerical_error" := by
  induction n generalizing s with
  | zero => simp [traceGo]
  | succ n ih =>
    by_cases h1 : allFinite s
    · by_cases h2 : flt s.r (some (tr.r_horizon * tr.capture_margin))
      · simp [traceGo, h1, h2]
      · by_cases h3 : fgt s.r (some (tr.max_radius_factor * tr.metric.M))
        · simp [traceGo, h1, h2, h3]
        · simpa [traceGo, h1, h2, h3] using ih (rk4_step tr s)
    · simp [traceGo, h1]

theorem traceGo_violated (tr : GeodesicTracer) (n : ℕ) (s : V8) :
    (traceGo tr n s).violated ↔
      ∃ e ∈ (traceGo tr n s).nullErrs, fgt e (some tr.null_tolerance) := by
  induction n generalizing s with
  | zero => simp [traceGo]
  | succ n ih =>
    by_cases h1 : allFinite s
    · by_cases h2 : flt s.r (some (tr.r_horizon * tr.capture_margin))
      · simp [traceGo, h1, h2]
      · by_cases h3 : fgt s.r (some (tr.max_radius_factor * tr.metric.M))
        · simp [traceGo, h1, h2, h3]
        · simp only [traceGo, h1, h2, h3, if_true, if_false, if_pos, if_neg,
            List.mem_cons]
          rw [ih (rk4_step tr s)]
          constructor
          · rintro (hv | ⟨e, he, hgt⟩)
            · exact ⟨_, Or.inl rfl, hv⟩
            · exact ⟨e, Or.inr he, hgt⟩
          · rintro ⟨e, (rfl | he), hgt⟩
            · exact Or.inl hgt
            · exact Or.inr ⟨e, he, hgt⟩
    · simp [traceGo, h1]

/-- Claim C1: for every 8-component initial state and every step budget,
`trace` terminates (it is a total function of a `Nat` budget) and returns a
record whose status lies in the fixed five-element set, and whose four
recorded coordinate sequences and null-error sequence all have one common
length, at most `max_steps + 1`. -/
theorem trace_status_and_lengths (tr : GeodesicTracer) (s : V8) (n : ℕ) :
    ((trace tr s n).status = "captured" ∨ (trace tr s n).status = "escaped" ∨
      (trace tr s n).status = "max_steps" ∨ (trace tr s n).status = "numerical_error" ∨
      (trace tr s n).status = "constraint_warning") ∧
    (trace tr s n).t.length = (trace tr s n).r.length ∧
    (trace tr s n).t.length = (trace tr s n).theta.length ∧
    (trace tr s n).t.length = (trace tr s n).phi.length ∧
    (trace tr s n).t.length = (trace tr s n).null_constraint.length ∧
    (trace tr s n).t.length ≤ n + 1 := by
  have hs := traceGo_shape tr n s
  have hst := traceGo_status tr n s
  constructor
  · by_cases hd : (traceGo tr n s).violated ∧ (traceGo tr n s).status = "max_steps"
    · simp only [trace, hd, if_pos]
      tauto
    · simp only [trace, hd, if_neg, not_false_iff]
      tauto
  · simp only [trace]
    exact ⟨hs.1, hs.2.1, hs.2.2.1, hs.2.2.2.1, le_trans hs.2.2.2.2 (Nat.le_succ n)⟩

/-- Claim C5: the returned status is `constraint_warning` iff the recorded
null-constraint error exceeded `null_tolerance` at some recorded step and the
loop itself ended with raw status `max_steps` (budget exhausted with no
capture, escape, or numerical error); a capture, escape or numerical-error
termination is never demoted, the recorded history is exactly the loop's
history (a violation never stops integration early), and the
`constraint_violated` flag is exactly the loop's flag. -/
theorem trace_constraint_warning_iff (tr : GeodesicTracer) (s : V8) (n : ℕ) :
    ((trace tr s n).status = "constraint_warning" ↔
      ((∃ e ∈ (trace tr s n).null_constraint, fgt e (some tr.null_tolerance)) ∧
        (traceGo tr n s).status = "max_steps")) ∧
    ((trace tr s n).status = "captured" ↔ (traceGo tr n s).status = "captured") ∧
    ((trace tr s n).status = "escaped" ↔ (traceGo tr n s).status = "escaped") ∧
    ((trace tr s n).status = "numerical_error" ↔
      (traceGo tr n s).status = "numerical_error") ∧
    (trace tr s n).t = (traceGo tr n s).ts ∧
    (trace tr s n).phi = (traceGo tr n s).phis ∧
    (trace tr s n).null_constraint = (traceGo tr n s).nullErrs ∧
    ((trace tr s n).constraint_violated ↔ (traceGo tr n s).violated) := by
  have hst := traceGo_status tr n s
  have hv := traceGo_violated tr n s
  have hstat : (trace tr s n).status =
      (if (traceGo tr n s).violated ∧ (traceGo tr n s).status = "max_steps"
        then "constraint_warning" else (traceGo tr n s).status) := rfl
  have hnc : (trace tr s n).null_constraint = (traceGo tr n s).nullErrs := rfl
  have ht : (trace tr s n).t = (traceGo tr n s).ts := rfl
  have hph : (trace tr s n).phi = (traceGo tr n s).phis := rfl
  have hcv : (trace tr s n).constraint_violated = (traceGo tr n s).violated := rfl
  rw [hstat, hnc, ht, hph, hcv]
  by_cases hd : (traceGo tr n s).violated ∧ (traceGo tr n s).status = "max_steps"
  · rw [if_pos hd]
    refine ⟨⟨fun _ => ⟨hv.mp hd.1, hd.2⟩, fun _ => rfl⟩, ?_, ?_, ?_, rfl, rfl, rfl, Iff.rfl⟩
    · exact ⟨fun h => absurd h (by simp), fun h => absurd (hd.2.symm.trans h) (by simp)⟩
    · exact ⟨fun h => absurd h (by simp), fun h => absurd (hd.2.symm.trans h) (by simp)⟩
    · exact ⟨fun h => absurd h (by simp), fun h => absurd (hd.2.symm.trans h) (by simp)⟩
  · rw [if_neg hd]
    refine ⟨?_, Iff.rfl, Iff.rfl, Iff.rfl, rfl, rfl, rfl, Iff.rfl⟩
    constructor
    · intro h
      rcases hst with h0 | h0 | h0 | h0 <;> exact absurd (h0.symm.trans h) (by simp)
    · rintro ⟨he, hms⟩
      exact absurd ⟨hv.mpr he, hms⟩ hd

/-- Claim C10: a single RK4 step returns either the all-NaN state (whenever
the input state, any of the four stage derivatives, or the weighted update has
a non-finite component) or the entirely finite weighted update; never a
mixture. -/
theorem rk4_step_allNaN_or_finite (tr : GeodesicTracer) (s : V8) :
    rk4_step tr s = nanV8 ∨
      (rk4_step tr s = rk4update tr s ∧ allFinite s ∧ allFinite (rk4k1 tr s) ∧
        allFinite (rk4k2 tr s) ∧ allFinite (rk4k3 tr s) ∧ allFinite (rk4k4 tr s) ∧
        allFinite (rk4_step tr s)) := by
  by_cases h1 : allFinite s
  · by_cases h2 : allFinite (rk4k1 tr s) ∧ allFinite (rk4k2 tr s) ∧
        allFinite (rk4k3 tr s) ∧ allFinite (rk4k4 tr s)
    · by_cases h3 : allFinite (rk4update tr s)
      · right
        have hstep : rk4_step tr s = rk4update tr s := by
          simp [rk4_step, h1, h2, h3]
        rw [hstep]
        exact ⟨rfl, h1, h2.1, h2.2.1, h2.2.2.1, h2.2.2.2, h3⟩
      · left; simp [rk4_step, h1, h2, h3]
    · left; simp [rk4_step, h1, h2]
  · left; simp [rk4_step, h1]

/-- Claim C3: for every `M > 0` and every real spin `a`, construction of the
spacetime model succeeds (the only failure mode is `M ≤ 0`, never `|a| > M`,
which is silently clamped), the effective spin satisfies `|a_eff| ≤ M`, the
horizon radicand `M² − a_eff²` is non-negative (so the square root is real),
and the horizon radius `M + sqrt(M² − a_eff²)` cached by the integrator's
constructor is non-negative. -/
theorem mkKerr_succeeds_clamped (M a : ℝ) (hM : 0 < M) :
    ∃ bh : KerrBlackHole, mkKerr M a = some bh ∧ bh.M = M ∧ |bh.a| ≤ M ∧
      0 ≤ M ^ 2 - bh.a ^ 2 ∧ 0 ≤ rHorizon bh := by
  have haeff : |if M < |a| then sgn a * M * (99 / 100) else a| ≤ M := by
    by_cases h : M < |a|
    · have ha : a ≠ 0 := by
        intro h0
        rw [h0, abs_zero] at h
        exact absurd h (not_lt.mpr hM.le)
      have hsgn : |sgn a| = 1 := by
        rcases lt_trichotomy a 0 with hlt | heq | hgt
        · simp [sgn, hlt]
        · exact absurd heq ha
        · simp [sgn, not_lt.mpr hgt.le, hgt.ne']
      rw [if_pos h, abs_mul, abs_mul, hsgn, one_mul, abs_of_pos hM,
        abs_of_pos (by norm_num : (0 : ℝ) < 99 / 100)]
      nlinarith
    · rw [if_neg h]
      exact not_lt.mp h
  refine ⟨⟨M, if M < |a| then sgn a * M * (99 / 100) else a, 1e-9⟩, ?_, rfl, haeff, ?_, ?_⟩
  · rw [mkKerr, if_neg (not_le.mpr hM)]
  · nlinarith [sq_abs (if M < |a| then sgn a * M * (99 / 100) else a),
      abs_nonneg (if M < |a| then sgn a * M * (99 / 100) else a), haeff]
  · exact add_nonneg hM.le (Real.sqrt_nonneg _)

/-- Witness for C3 at `M = 1`, `a = 2` (a case that exercises the clamp). -/
theorem mkKerr_succeeds_clamped_witness :
    ∃ bh : KerrBlackHole, mkKerr 1 2 = some bh ∧ bh.M = 1 ∧ |bh.a| ≤ 1 ∧
      0 ≤ (1 : ℝ) ^ 2 - bh.a ^ 2 ∧ 0 ≤ rHorizon bh :=
  mkKerr_succeeds_clamped 1 2 (by norm_num)

/-- Claim C6: `summarize` applied to the empty record list is total (the
embedding is a function, mirroring the source's explicit empty-case branch,
which raises nothing) and returns `total_rays = 0` with every fractional
field equal to the finite value `0`. -/
theorem summarize_empty_zeroed :
    getField (summarize []) "total_rays" = some 0 ∧
    getField (summarize []) "captured_fraction" = some 0 ∧
    getField (summarize []) "escaped_fraction" = some 0 ∧
    getField (summarize []) "max_steps_fraction" = some 0 ∧
    getField (summarize []) "numerical_error_fraction" = some 0 ∧
    getField (summarize []) "constraint_warning_fraction" = some 0 ∧
    getField (summarize []) "constraint_violation_fraction" = some 0 := by
  refine ⟨?_, ?_, ?_, ?_, ?_, ?_, ?_⟩ <;> simp [summarize, getField, List.lookup]

/-- Counterexample to claim C9: the summary of the empty record list has no
`mean_signed_deflection` field, while the claim asserts that this field is
present for the empty list just as for non-empty lists. -/
theorem summarize_empty_missing_mean_signed :
    ¬ ("mean_signed_deflection" ∈ (summarize []).map Prod.fst) := by
  simp [summarize]

/-- Claim C9 (amended): a non-empty record list yields exactly the fifteen
fields of section 4.4 in insertion order; the empty record list yields the
same fields except `mean_signed_deflection` (fourteen fields). -/
theorem summarize_field_sets :
    ((summarize []).map Prod.fst =
      ["total_rays", "captured_fraction", "escaped_fraction", "max_steps_fraction",
       "numerical_error_fraction", "constraint_warning_fraction",
       "constraint_violation_fraction", "mean_abs_deflection", "max_abs_deflection",
       "mean_steps", "mean_proper_time", "mean_null_error", "mean_final_null_error",
       "max_null_error"]) ∧
    ∀ (t : Traj) (ts : List Traj),
      (summarize (t :: ts)).map Prod.fst =
      ["total_rays", "captured_fraction", "escaped_fraction", "max_steps_fraction",
       "numerical_error_fraction", "constraint_warning_fraction",
       "constraint_violation_fraction", "mean_abs_deflection", "max_abs_deflection",
       "mean_signed_deflection", "mean_steps", "mean_proper_time", "mean_null_error",
       "mean_final_null_error", "max_null_error"] := by
  constructor
  · simp [summarize]
  · intro t ts
    simp [summarize]

theorem totalForce_ft (s : V8) (l : List MassPerturbation) :
    ∀ acc : F4, acc.ft = some 0 →
      (l.foldl (fun acc p => f4add acc (get_force p s)) acc).ft = some 0 := by
  induction l with
  | nil => intro acc h; simpa using h
  | cons p ps ih =>
    intro acc h
    simp only [List.foldl_cons]
    exact ih _ (by simp [f4add, h])

theorem dynamics_pt_cases (tr : GeodesicTracer) (s : V8) :
    (dynamics tr s).pt = some 0 ∨ dynamics tr s = nanV8 := by
  by_cases h : allFinite s
  · left
    simp only [dynamics, if_pos h]
    rw [derivatives_pt, totalForce_ft s tr.perturbations _ rfl]
    simp
  · right
    simp [dynamics, h]

/-- Claim C2 (amended): for every finite state, the per-stage derivative used
by the integrator is exactly zero in the momentum slot conjugate to time even
when perturbations are active (so `p_t` is exactly conserved across any finite
RK4 step), but the slot conjugate to azimuth equals the summed perturbation
`F_φ` and is hard-coded zero only when no perturbation is active. -/
theorem dynamics_time_channel_zero (tr : GeodesicTracer) (s : V8) (h : allFinite s) :
    (dynamics tr s).pt = some 0 ∧
    (tr.perturbations = [] → (dynamics tr s).pph = some 0) ∧
    (rk4_step tr s ≠ nanV8 → (rk4_step tr s).pt = s.pt) := by
  refine ⟨?_, ?_, ?_⟩
  · simp only [dynamics, if_pos h]
    rw [derivatives_pt, totalForce_ft s tr.perturbations _ rfl]
    simp
  · intro hp
    simp only [dynamics, if_pos h, hp, List.foldl_nil]
    rw [derivatives_pph]
    simp
  · intro hne
    by_cases h2 : allFinite (rk4k1 tr s) ∧ allFinite (rk4k2 tr s) ∧
        allFinite (rk4k3 tr s) ∧ allFinite (rk4k4 tr s)
    · by_cases h3 : allFinite (rk4update tr s)
      · have hstep : rk4_step tr s = rk4update tr s := by simp [rk4_step, h, h2, h3]
        rw [hstep]
        obtain ⟨v, hv⟩ : ∃ v, s.pt = some v := Option.isSome_iff_exists.mp h.2.2.2.2.1
        have k1pt : (rk4k1 tr s).pt = some 0 := by
          rcases dynamics_pt_cases tr s with h0 | h0
          · exact h0
          · exact absurd (h0 ▸ h2.1) not_allFinite_nanV8
        have k2pt : (rk4k2 tr s).pt = some 0 := by
          rcases dynamics_pt_cases tr (vadd s (vsmul (1 / 2 * tr.dt) (rk4k1 tr s)))
            with h0 | h0
          · exact h0
          · exact absurd (h0 ▸ h2.2.1) not_allFinite_nanV8
        have k3pt : (rk4k3 tr s).pt = some 0 := by
          rcases dynamics_pt_cases tr (vadd s (vsmul (1 / 2 * tr.dt) (rk4k2 tr s)))
            with h0 | h0
          · exact h0
          · exact absurd (h0 ▸ h2.2.2.1) not_allFinite_nanV8
        have k4pt : (rk4k4 tr s).pt = some 0 := by
          rcases dynamics_pt_cases tr (vadd s (vsmul tr.dt (rk4k3 tr s))) with h0 | h0
          · exact h0
          · exact absurd (h0 ▸ h2.2.2.2) not_allFinite_nanV8
        simp only [rk4update, vadd, vsmul]
        rw [k1pt, k2pt, k3pt, k4pt, hv]
        simp
      · exact absurd (by simp [rk4_step, h, h2, h3]) hne
    · exact absurd (by simp [rk4_step, h, h2]) hne

/-- Concrete spacetime for the C2 counterexample. -/
def bhC2 : KerrBlackHole := ⟨1, 9 / 10, 1e-9⟩

/-- A point-mass perturbation at `r = 1`, `θ = π/2`, `φ = π/2` with the
orchestrator defaults `force_scale = 100`, `softening = 0.1`. -/
def pertC2 : MassPerturbation :=
  mkPerturbation 1 (Real.pi / 2) (Real.pi / 2) (1 / 10) 100 (1 / 10) 1e-9

/-- Tracer with the single active perturbation `pertC2`. -/
def trC2 : GeodesicTracer := mkTracer bhC2 (1 / 20) [pertC2] (1 / 100) 50 (21 / 20)

/-- A finite equatorial photon state at `r = 2`, `φ = 0`. -/
def sC2 : V8 :=
  ⟨some 0, some 2, some (Real.pi / 2), some 0, some (-1), some 0, some 0, some 0⟩

theorem get_force_pertC2 :
    (get_force pertC2 sC2).fph = some (2 * (1 / Real.sqrt 5) / (2 * 1)) := by
  have h5pos : 0 < Real.sqrt 5 := Real.sqrt_pos.mpr (by norm_num)
  have h5sq : Real.sqrt 5 ^ 2 = 5 := Real.sq_sqrt (by norm_num)
  have h5ge : ¬ (Real.sqrt 5 < 1 / 10) := by
    intro hlt
    nlinarith [Real.sqrt_nonneg 5]
  have hmax : max (1 / 10 : ℝ) 1e-9 = 1 / 10 := max_eq_left (by norm_num)
  simp only [pertC2, mkPerturbation, toCartesian, sC2, get_force]
  simp only [Real.sin_pi_div_two, Real.cos_pi_div_two, Real.sin_zero, Real.cos_zero]
  norm_num
  rw [if_neg h5ge, if_neg h5ge]
  rw [fdiv_some _ (by norm_num : (5 : ℝ) ≠ 0)]
  rw [fdiv_some _ (ne_of_gt h5pos), fdiv_some _ (ne_of_gt h5pos), fdiv_some _ (ne_of_gt h5pos)]
  simp only [fmul_some, fadd_some]
  rw [fdiv_some _ (by norm_num : (2 : ℝ) ≠ 0)]
  congr 1
  field_simp
  ring

/-- Counterexample to claim C2: with the perturbation `pertC2` active, the
per-stage derivative at the finite state `sC2` is nonzero in the momentum slot
conjugate to azimuth (`dp_φ/dλ` receives the perturbation's `F_φ`), so `p_φ`
is not exactly conserved. -/
theorem dynamics_pph_nonzero_cex : (dynamics trC2 sC2).pph ≠ some 0 := by
  have hfin : allFinite sC2 := by simp [allFinite, sC2]
  have h5pos : 0 < Real.sqrt 5 := Real.sqrt_pos.mpr (by norm_num)
  intro hcontra
  simp only [dynamics, if_pos hfin] at hcontra
  rw [derivatives_pph] at hcontra
  rw [show trC2.perturbations = [pertC2] from rfl] at hcontra
  simp only [List.foldl_cons, List.foldl_nil, f4add] at hcontra
  rw [get_force_pertC2] at hcontra
  simp only [fadd_some] at hcontra
  have hX := Option.some.inj hcontra
  norm_num at hX

/-- Spacetime and tracer with no active perturbation, for the C2 witness. -/
def trC2w : GeodesicTracer := mkTracer ⟨1, 9 / 10, 1e-9⟩ (1 / 20) [] (1 / 100) 50 (21 / 20)

/-- A concrete finite state for the C2 witness. -/
def sC2w : V8 := ⟨some 0, some 20, some 1, some 0, some (-1), some (-1), some 0, some 4⟩

/-- Witness for the amended C2 theorem at a concrete tracer and state. -/
theorem dynamics_time_channel_zero_witness :
    (dynamics trC2w sC2w).pt = some 0 ∧
    (trC2w.perturbations = [] → (dynamics trC2w sC2w).pph = some 0) ∧
    (rk4_step trC2w sC2w ≠ nanV8 → (rk4_step trC2w sC2w).pt = sC2w.pt) :=
  dynamics_time_channel_zero trC2w sC2w (by simp [allFinite, sC2w])

theorem keysOf_length (l : List Traj) (h : ∀ t ∈ l, (t.ray_index).isSome) :
    (keysOf l).length = l.length := by
  induction l with
  | nil => rfl
  | cons t ts ih =>
    obtain ⟨k, hk⟩ := Option.isSome_iff_exists.mp (h t (List.mem_cons_self t ts))
    have hts := ih (fun x hx => h x (List.mem_cons_of_mem _ hx))
    simp only [keysOf, List.filterMap_cons, hk, List.length_cons] at *
    omega

theorem commonKeys_self_mem (l : List Traj) (k : ℕ) :
    k ∈ commonKeys l l ↔ k ∈ keysOf l := by
  unfold commonKeys
  rw [(List.perm_insertionSort _ _).mem_iff, List.mem_dedup, List.mem_filter]
  simp

theorem commonKeys_self_length (l : List Traj) (hn : (keysOf l).Nodup)
    (hs : ∀ t ∈ l, (t.ray_index).isSome) :
    (commonKeys l l).length = l.length := by
  unfold commonKeys
  rw [(List.perm_insertionSort _ _).length_eq]
  rw [List.filter_eq_self.mpr (fun a ha => by simpa using ha)]
  rw [List.dedup_eq_self.mpr hn]
  exact keysOf_length l hs

theorem filter_ray_unique (t0 : Traj) (k : ℕ) (hk : t0.ray_index = some k) :
    ∀ l : List Traj, (keysOf l).Nodup → t0 ∈ l →
      l.filter (fun t => t.ray_index = some k) = [t0] := by
  intro l
  induction l with
  | nil => intro _ h; cases h
  | cons t ts ih =>
    intro hn ht
    have hnts : (keysOf ts).Nodup := by
      rcases ho : t.ray_index with _ | kt
      · simpa [keysOf, List.filterMap_cons, ho] using hn
      · have he : keysOf (t :: ts) = kt :: keysOf ts := by
          simp [keysOf, List.filterMap_cons, ho]
        rw [he] at hn
        exact hn.of_cons
    rcases List.mem_cons.mp ht with rfl | hmem
    · rw [List.filter_cons_of_pos (by simp [hk])]
      have hkeys : keysOf (t0 :: ts) = k :: keysOf ts := by
        simp [keysOf, List.filterMap_cons, hk]
      rw [hkeys] at hn
      have hknot : k ∉ keysOf ts := (List.nodup_cons.mp hn).1
      have : ts.filter (fun t => t.ray_index = some k) = [] := by
        rw [List.filter_eq_nil_iff]
        intro x hx
        simp only [decide_eq_true_eq]
        intro hxk
        exact hknot (List.mem_filterMap.mpr ⟨x, hx, hxk⟩)
      rw [this]
    · have hkmem : k ∈ keysOf ts := List.mem_filterMap.mpr ⟨t0, hmem, hk⟩
      have hpred : ¬ (t.ray_index = some k) := by
        intro he
        have hkeys : keysOf (t :: ts) = k :: keysOf ts := by
          simp [keysOf, List.filterMap_cons, he]
        rw [hkeys] at hn
        exact (List.nodup_cons.mp hn).1 hkmem
      rw [List.filter_cons_of_neg (by simpa using hpred)]
      exact ih hnts hmem

theorem dictLookup_unique (t0 : Traj) (k : ℕ) (hk : t0.ray_index = some k)
    (l : List Traj) (hn : (keysOf l).Nodup) (ht : t0 ∈ l) :
    dictLookup l k = some t0 := by
  unfold dictLookup
  rw [filter_ray_unique t0 k hk l hn ht]
  rfl

theorem le_foldl_max (l : List ℝ) : ∀ a : ℝ, a ≤ l.foldl max a := by
  induction l with
  | nil => intro a; simp
  | cons y ys ih => intro a; exact le_trans (le_max_left a y) (ih (max a y))

theorem foldl_max_le_of_mem (l : List ℝ) : ∀ (a x : ℝ), x ∈ l → x ≤ l.foldl max a := by
  induction l with
  | nil => intro a x h; cases h
  | cons y ys ih =>
    intro a x h
    rcases List.mem_cons.mp h with rfl | h'
    · exact le_trans (le_max_right a x) (le_foldl_max ys (max a x))
    · exact ih (max a y) x h'

theorem foldl_max_cases (l : List ℝ) : ∀ a : ℝ, l.foldl max a = a ∨ l.foldl max a ∈ l := by
  induction l with
  | nil => intro a; left; rfl
  | cons y ys ih =>
    intro a
    rw [List.foldl_cons]
    rcases ih (max a y) with h | h
    · rw [h]
      rcases le_total a y with hle | hle
      · right
        rw [max_eq_right hle]
        exact List.mem_cons_self _ _
      · left
        exact max_eq_left hle
    · right
      exact List.mem_cons_of_mem _ h

theorem foldl_max_all_zero (l : List ℝ) (a : ℝ) (ha : a = 0) (h : ∀ x ∈ l, x = 0) :
    l.foldl max a = 0 := by
  rcases foldl_max_cases l a with h0 | h0
  · rw [h0, ha]
  · rw [← h _ h0]

theorem signedDelta_self_zero (l : List Traj) (k : ℕ) (x : ℝ)
    (h : signedDelta l l k = some x) : x = 0 := by
  rcases hb : dictLookup l k with _ | tb
  · unfold signedDelta at h
    rw [hb] at h
    simp at h
  · rcases hf : fabs (deflection tb) with _ | db
    · unfold signedDelta at h
      rw [hb] at h
      simp only at h
      rw [hf] at h
      simp at h
    · unfold signedDelta at h
      rw [hb] at h
      simp only at h
      rw [hf] at h
      simp at h
      linarith [h]

theorem summarize_captured_cons (t : Traj) (ts : List Traj) :
    getField (summarize (t :: ts)) "captured_fraction" =
      some ((((t :: ts).filter (fun tr => tr.status = "captured")).length : ℝ) /
        ((t :: ts).length : ℝ)) := by
  simp [summarize, getField, List.lookup]

theorem summarize_escaped_cons (t : Traj) (ts : List Traj) :
    getField (summarize (t :: ts)) "escaped_fraction" =
      some ((((t :: ts).filter (fun tr => tr.status = "escaped")).length : ℝ) /
        ((t :: ts).length : ℝ)) := by
  simp [summarize, getField, List.lookup]

theorem compare_pos (b p : List Traj) (h : ¬ (commonKeys b p).length = 0) :
    compare_trajectory_sets b p =
      [("common_rays", some (((commonKeys b p).length : ℕ) : ℝ)),
       ("mean_delta_abs_deflection",
         if ((commonKeys b p).filterMap (signedDelta b p)).isEmpty then none
         else some (((commonKeys b p).filterMap (signedDelta b p)).sum /
           ((((commonKeys b p).filterMap (signedDelta b p)).length : ℕ) : ℝ))),
       ("max_delta_abs_deflection",
         listMax (((commonKeys b p).filterMap (signedDelta b p)).map (fun x => |x|))),
       ("captured_delta",
         fsub
           (getField (summarize ((commonKeys b p).filterMap (dictLookup p)))
             "captured_fraction")
           (getField (summarize ((commonKeys b p).filterMap (dictLookup b)))
             "captured_fraction")),
       ("escaped_delta",
         fsub
           (getField (summarize ((commonKeys b p).filterMap (dictLookup p)))
             "escaped_fraction")
           (getField (summarize ((commonKeys b p).filterMap (dictLookup b)))
             "escaped_fraction"))] := by
  simp only [compare_trajectory_sets]
  rw [if_neg h]

/-- Claim C7 (amended): comparing a non-empty record list against itself,
with every record tagged by a ray index, the tagged indices pairwise distinct,
and at least one record having a finite deflection (as holds for every record
an orchestrator run with at least one integration step produces), yields
`common_rays` equal to the number of records and all four delta statistics
equal to zero.  (On the empty list — also producible by the orchestrator —
`compare` instead returns its placeholder with NaN delta statistics, which is
the counterexample to the claim as stated.) -/
theorem compare_self_zero (records : List Traj)
    (hsome : ∀ t ∈ records, (t.ray_index).isSome)
    (hnd : (keysOf records).Nodup)
    (hfin : ∃ t ∈ records, (deflection t).isSome) :
    getField (compare_trajectory_sets records records) "common_rays" =
      some ((records.length : ℕ) : ℝ) ∧
    getField (compare_trajectory_sets records records) "mean_delta_abs_deflection" =
      some 0 ∧
    getField (compare_trajectory_sets records records) "max_delta_abs_deflection" =
      some 0 ∧
    getField (compare_trajectory_sets records records) "captured_delta" = some 0 ∧
    getField (compare_trajectory_sets records records) "escaped_delta" = some 0 := by
  obtain ⟨t0, ht0, hd0⟩ := hfin
  obtain ⟨k0, hk0⟩ := Option.isSome_iff_exists.mp (hsome t0 ht0)
  have hk0mem : k0 ∈ keysOf records := List.mem_filterMap.mpr ⟨t0, ht0, hk0⟩
  have hcommem : k0 ∈ commonKeys records records :=
    (commonKeys_self_mem records k0).mpr hk0mem
  have hlenne : ¬ (commonKeys records records).length = 0 := by
    intro h0
    rw [List.length_eq_zero] at h0
    rw [h0] at hcommem
    cases hcommem
  have hlook : dictLookup records k0 = some t0 := dictLookup_unique t0 k0 hk0 records hnd ht0
  have hall0 : ∀ x ∈ (commonKeys records records).filterMap (signedDelta records records),
      x = 0 := by
    intro x hx
    obtain ⟨k, _, hk⟩ := List.mem_filterMap.mp hx
    exact signedDelta_self_zero records k x hk
  have h0mem : (0 : ℝ) ∈ (commonKeys records records).filterMap
      (signedDelta records records) := by
    apply List.mem_filterMap.mpr
    refine ⟨k0, hcommem, ?_⟩
    obtain ⟨d0, hd0'⟩ := Option.isSome_iff_exists.mp hd0
    unfold signedDelta
    rw [hlook]
    simp only
    rw [hd0']
    simp
  have hdsne : ¬ ((commonKeys records records).filterMap
      (signedDelta records records)).isEmpty := by
    have hne := List.ne_nil_of_mem h0mem
    simpa [List.isEmpty_iff] using hne
  have hsubne : ∃ u us, (commonKeys records records).filterMap (dictLookup records) =
      u :: us := by
    have hmem : t0 ∈ (commonKeys records records).filterMap (dictLookup records) :=
      List.mem_filterMap.mpr ⟨k0, hcommem, hlook⟩
    cases hsub : (commonKeys records records).filterMap (dictLookup records) with
    | nil =>
      rw [hsub] at hmem
      cases hmem
    | cons u us => exact ⟨u, us, rfl⟩
  obtain ⟨u, us, hsub⟩ := hsubne
  rw [compare_pos records records hlenne]
  have hmapall : ∀ y ∈ ((commonKeys records records).filterMap
      (signedDelta records records)).map (fun x => |x|), y = 0 := by
    intro y hy
    obtain ⟨x, hx, rfl⟩ := List.mem_map.mp hy
    rw [hall0 x hx]
    exact abs_zero
  obtain ⟨z, zs, hzs⟩ : ∃ z zs, ((commonKeys records records).filterMap
      (signedDelta records records)).map (fun x => |x|) = z :: zs := by
    cases hm : ((commonKeys records records).filterMap
        (signedDelta records records)).map (fun x => |x|) with
    | nil =>
      rw [List.map_eq_nil_iff] at hm
      rw [hm] at h0mem
      cases h0mem
    | cons z zs => exact ⟨z, zs, rfl⟩
  have hz : z = 0 := hmapall z (by rw [hzs]; exact List.mem_cons_self _ _)
  have hzsall : ∀ x ∈ zs, x = 0 := by
    intro x hx
    exact hmapall x (by rw [hzs]; exact List.mem_cons_of_mem _ hx)
  have hlmax : listMax (((commonKeys records records).filterMap
      (signedDelta records records)).map (fun x => |x|)) = some 0 := by
    rw [hzs]
    show some (zs.foldl max z) = some 0
    rw [foldl_max_all_zero zs z hz hzsall]
  refine ⟨?_, ?_, ?_, ?_, ?_⟩
  · simp [getField, List.lookup, commonKeys_self_length records hnd hsome]
  · simp [getField, List.lookup, hdsne, List.sum_eq_zero hall0]
  · simp [getField, List.lookup, hlmax]
  · simp only [getField, List.lookup]
    rw [hsub]
    have hc := summarize_captured_cons u us
    unfold getField at hc
    rw [hc]
    simp
  · simp only [getField, List.lookup]
    rw [hsub]
    have hc := summarize_escaped_cons u us
    unfold getField at hc
    rw [hc]
    simp

/-- Counterexample to claim C7 as stated: the empty record list is producible
by the beam orchestrator (zero rays, or all rays skipped), `compare` of it
against itself returns `common_rays = 0` but NaN — not zero — delta
statistics. -/
theorem compare_empty_not_zero :
    getField (compare_trajectory_sets ([] : List Traj) []) "captured_delta" = none ∧
    getField (compare_trajectory_sets ([] : List Traj) []) "mean_delta_abs_deflection" =
      none ∧
    getField (compare_trajectory_sets ([] : List Traj) []) "common_rays" = some 0 := by
  refine ⟨?_, ?_, ?_⟩ <;>
    simp [compare_trajectory_sets, commonKeys, keysOf, List.insertionSort, getField,
      List.lookup]

/-- A concrete one-record list for the C7 witness. -/
def trajC7 : Traj :=
  { t := [some 0], r := [some 10], theta := [some 1], phi := [some 3],
    status := "escaped", steps := 1, proper_time := 1 / 20,
    null_constraint := [some 0], initial_null_error := some 0,
    final_null_error := some 0, mean_null_error := some 0, max_null_error := 0,
    constraint_violated := False, ray_index := some 0, initial_y := some 0,
    initial_phi := some 0 }

/-- Witness for the amended C7 theorem at a concrete one-record list. -/
theorem compare_self_zero_witness :
    getField (compare_trajectory_sets [trajC7] [trajC7]) "common_rays" =
      some ((([trajC7] : List Traj).length : ℕ) : ℝ) ∧
    getField (compare_trajectory_sets [trajC7] [trajC7]) "mean_delta_abs_deflection" =
      some 0 ∧
    getField (compare_trajectory_sets [trajC7] [trajC7]) "max_delta_abs_deflection" =
      some 0 ∧
    getField (compare_trajectory_sets [trajC7] [trajC7]) "captured_delta" = some 0 ∧
    getField (compare_trajectory_sets [trajC7] [trajC7]) "escaped_delta" = some 0 :=
  compare_self_zero [trajC7]
    (by intro t ht; rw [List.mem_singleton] at ht; rw [ht]; simp [trajC7])
    (by simp [keysOf, trajC7])
    ⟨trajC7, by simp, by simp [deflection, trajC7]⟩

/-- Claim C8 (amended): over the matched ray indices whose baseline and
perturbed deflections are both finite, `compare` reports the mean of the
signed quantity `|deflection_perturbed| − |deflection_baseline|`, but the max
it reports is the maximum of the absolute values `||d_p| − |d_b||` of that
signed quantity (an attained upper bound of `|δ|`), not the maximum of the
signed quantity itself. -/
theorem compare_delta_stats (b p : List Traj)
    (h : (commonKeys b p).filterMap (signedDelta b p) ≠ []) :
    (∃ mu, getField (compare_trajectory_sets b p) "mean_delta_abs_deflection" =
        some mu ∧
      mu * (((commonKeys b p).filterMap (signedDelta b p)).length : ℝ) =
        ((commonKeys b p).filterMap (signedDelta b p)).sum) ∧
    (∃ m, getField (compare_trajectory_sets b p) "max_delta_abs_deflection" = some m ∧
      m ∈ ((commonKeys b p).filterMap (signedDelta b p)).map (fun x => |x|) ∧
      ∀ d ∈ (commonKeys b p).filterMap (signedDelta b p), |d| ≤ m) := by
  have hcomm : ¬ (commonKeys b p).length = 0 := by
    intro h0
    rw [List.length_eq_zero] at h0
    exact h (by rw [h0]; rfl)
  obtain ⟨z, zs, hzs⟩ : ∃ z zs, (commonKeys b p).filterMap (signedDelta b p) = z :: zs := by
    cases hm : (commonKeys b p).filterMap (signedDelta b p) with
    | nil => exact absurd hm h
    | cons z zs => exact ⟨z, zs, rfl⟩
  rw [compare_pos b p hcomm]
  constructor
  · refine ⟨((commonKeys b p).filterMap (signedDelta b p)).sum /
        (((commonKeys b p).filterMap (signedDelta b p)).length : ℝ), ?_, ?_⟩
    · simp only [getField, List.lookup]
      rw [if_neg (by rw [hzs]; simp)]
      simp
    · have hlen : (((commonKeys b p).filterMap (signedDelta b p)).length : ℝ) ≠ 0 := by
        rw [hzs]
        simp only [List.length_cons]
        push_cast
        intro h0
        have hpos : (0 : ℝ) < (zs.length : ℝ) + 1 := by positivity
        linarith
      exact div_mul_cancel₀ _ hlen
  · refine ⟨(zs.map (fun x => |x|)).foldl max |z|, ?_, ?_, ?_⟩
    · simp only [getField, List.lookup]
      rw [hzs]
      simp [listMax]
    · rw [hzs]
      rcases foldl_max_cases (zs.map (fun x => |x|)) |z| with h0 | h0
      · rw [h0, List.map_cons]
        exact List.mem_cons_self _ _
      · rw [List.map_cons]
        exact List.mem_cons_of_mem _ h0
    · intro d hd
      rw [hzs] at hd
      rcases List.mem_cons.mp hd with rfl | hd'
      · exact le_foldl_max _ _
      · exact foldl_max_le_of_mem _ _ _ (List.mem_map.mpr ⟨d, hd', rfl⟩)

/-- Baseline one-ray record set for the C8 counterexample (deflection `3`). -/
def trajB8 : Traj :=
  { t := [some 0], r := [some 10], theta := [some 1], phi := [some 3],
    status := "escaped", steps := 1, proper_time := 1 / 20,
    null_constraint := [some 0], initial_null_error := some 0,
    final_null_error := some 0, mean_null_error := some 0, max_null_error := 0,
    constraint_violated := False, ray_index := some 0, initial_y := some 0,
    initial_phi := some 0 }

/-- Perturbed one-ray record set for the C8 counterexample (deflection `1`). -/
def trajP8 : Traj :=
  { t := [some 0], r := [some 10], theta := [some 1], phi := [some 1],
    status := "escaped", steps := 1, proper_time := 1 / 20,
    null_constraint := [some 0], initial_null_error := some 0,
    final_null_error := some 0, mean_null_error := some 0, max_null_error := 0,
    constraint_violated := False, ray_index := some 0, initial_y := some 0,
    initial_phi := some 0 }

theorem commonKeys_C8 : commonKeys [trajB8] [trajP8] = [0] := by
  simp [commonKeys, keysOf, trajB8, trajP8, List.insertionSort, List.orderedInsert]

theorem signedDelta_C8 : signedDelta [trajB8] [trajP8] 0 = some (-2) := by
  have hlb : dictLookup [trajB8] 0 = some trajB8 := by
    simp [dictLookup, trajB8]
  have hlp : dictLookup [trajP8] 0 = some trajP8 := by
    simp [dictLookup, trajP8]
  have hdb : fabs (deflection trajB8) = some 3 := by
    simp [deflection, trajB8]
  have hdp : fabs (deflection trajP8) = some 1 := by
    simp [deflection, trajP8]
  unfold signedDelta
  rw [hlb, hlp]
  simp only
  rw [hdb, hdp]
  norm_num

theorem deltas_C8 :
    (commonKeys [trajB8] [trajP8]).filterMap (signedDelta [trajB8] [trajP8]) = [-2] := by
  rw [commonKeys_C8]
  simp [List.filterMap_cons, signedDelta_C8]

/-- Counterexample to claim C8 as stated: at these one-ray record sets the
only signed delta is `−2`, so the maximum of the signed quantity over the
matched rays is `−2`, yet the reported `max_delta_abs_deflection` is `2`. -/
theorem compare_max_not_signed_cex :
    getField (compare_trajectory_sets [trajB8] [trajP8]) "max_delta_abs_deflection" =
      some 2 ∧
    (commonKeys [trajB8] [trajP8]).filterMap (signedDelta [trajB8] [trajP8]) = [-2] ∧
    (2 : ℝ) ≠ -2 := by
  refine ⟨?_, deltas_C8, by norm_num⟩
  rw [compare_pos [trajB8] [trajP8] (by rw [commonKeys_C8]; simp)]
  simp only [getField, List.lookup]
  rw [deltas_C8]
  simp [listMax]

/-- Witness for the amended C8 theorem at the concrete one-ray record sets. -/
theorem compare_delta_stats_witness :
    (∃ mu, getField (compare_trajectory_sets [trajB8] [trajP8])
        "mean_delta_abs_deflection" = some mu ∧
      mu * (((commonKeys [trajB8] [trajP8]).filterMap
        (signedDelta [trajB8] [trajP8])).length : ℝ) =
        ((commonKeys [trajB8] [trajP8]).filterMap (signedDelta [trajB8] [trajP8])).sum) ∧
    (∃ m, getField (compare_trajectory_sets [trajB8] [trajP8])
        "max_delta_abs_deflection" = some m ∧
      m ∈ ((commonKeys [trajB8] [trajP8]).filterMap
        (signedDelta [trajB8] [trajP8])).map (fun x => |x|) ∧
      ∀ d ∈ (commonKeys [trajB8] [trajP8]).filterMap (signedDelta [trajB8] [trajP8]),
        |d| ≤ m) :=
  compare_delta_stats [trajB8] [trajP8] (by rw [deltas_C8]; simp)

theorem flt_some_right {x : F} {c : ℝ} (h : flt x (some c)) : ∃ a, x = some a ∧ a < c := by
  cases x with
  | none => exact absurd h (flt_none_left _)
  | some a => exact ⟨a, rfl, h⟩

theorem photonB0_eq_some {bh : KerrBlackHole} {r theta pt pphi : ℝ} {b0 : ℝ}
    (h : photonB0 bh r theta pt pphi = some b0) :
    ∃ ttv tphiv ththv phiphiv,
      (inverse_metric_components bh r theta).tt = some ttv ∧
      (inverse_metric_components bh r theta).tphi = some tphiv ∧
      (inverse_metric_components bh r theta).thth = some ththv ∧
      (inverse_metric_components bh r theta).phiphi = some phiphiv ∧
      b0 = ttv * pt ^ 2 + 2 * tphiv * pt * pphi + ththv * 0 ^ 2 + phiphiv * pphi ^ 2 := by
  simp only [photonB0] at h
  rw [fadd_eq_some] at h
  obtain ⟨s123, x4, h123, h4, rfl⟩ := h
  rw [fadd_eq_some] at h123
  obtain ⟨s12, x3, h12, h3, rfl⟩ := h123
  rw [fadd_eq_some] at h12
  obtain ⟨x1, x2, h1, h2, rfl⟩ := h12
  rw [fmul_eq_some] at h1
  obtain ⟨ttv, c1, htt, hc1, rfl⟩ := h1
  rw [fmul_eq_some] at h2
  obtain ⟨y2, c2, hy2, hc2, rfl⟩ := h2
  rw [fmul_eq_some] at hy2
  obtain ⟨w2, c3, hw2, hc3, rfl⟩ := hy2
  rw [fmul_eq_some] at hw2
  obtain ⟨two, tphiv, htwo, htphi, rfl⟩ := hw2
  rw [fmul_eq_some] at h3
  obtain ⟨ththv, c4, hthth, hc4, rfl⟩ := h3
  rw [fmul_eq_some] at h4
  obtain ⟨phiphiv, c5, hphiphi, hc5, rfl⟩ := h4
  refine ⟨ttv, tphiv, ththv, phiphiv, htt, htphi, hthth, hphiphi, ?_⟩
  obtain rfl := Option.some.inj htwo.symm
  obtain rfl := Option.some.inj hc1.symm
  obtain rfl := Option.some.inj hc3.symm
  obtain rfl := Option.some.inj hc2.symm
  obtain rfl := Option.some.inj hc4.symm
  obtain rfl := Option.some.inj hc5.symm
  ring

theorem hamiltonianAt_some {bh : KerrBlackHole} {r theta : ℝ}
    {ttv tphiv avv ththv phiphiv ptv prv pthv pphv : ℝ}
    (htt : (inverse_metric_components bh r theta).tt = some ttv)
    (htphi : (inverse_metric_components bh r theta).tphi = some tphiv)
    (hrr : (inverse_metric_components bh r theta).rr = some avv)
    (hthth : (inverse_metric_components bh r theta).thth = some ththv)
    (hphiphi : (inverse_metric_components bh r theta).phiphi = some phiphiv) :
    hamiltonianAt bh r theta (some ptv) (some prv) (some pthv) (some pphv) =
      some (1 / 2 * (ttv * (ptv * ptv) + 2 * tphiv * ptv * pphv + avv * (prv * prv) +
        ththv * (pthv * pthv) + phiphiv * (pphv * pphv))) := by
  simp only [hamiltonianAt]
  rw [htt, htphi, hrr, hthth, hphiphi]
  simp only [fmul_some, fadd_some]

theorem null_value_zero (ttv tphiv avv ththv phiphiv ptv pphv bv q prv : ℝ)
    (hav0 : avv ≠ 0)
    (hbv : bv = ttv * ptv ^ 2 + 2 * tphiv * ptv * pphv + ththv * 0 ^ 2 +
      phiphiv * pphv ^ 2)
    (hq : q = -bv / avv) (hpr : prv * prv = q) :
    1 / 2 * (ttv * (ptv * ptv) + 2 * tphiv * ptv * pphv + avv * (prv * prv) +
      ththv * (0 * 0) + phiphiv * (pphv * pphv)) = 0 := by
  rw [hpr, hq, hbv]
  field_simp
  ring

/-- Claim C4 (amended): whenever either photon initializer returns a state and
the null-condition quadratic admitted a non-negative `pr_sq = -B/A` (so the
final clamp `max(pr_sq, 0)` was inactive), the returned state satisfies the
null constraint exactly: `H(state) = 0`, hence `|H| ≤ null_tolerance` for any
non-negative tolerance.  When `pr_sq` is clamped from a slightly negative
value to zero the residual is `|A·pr_sq|/2`, which can exceed the tolerance at
extreme positions (see the counterexample). -/
theorem initializer_null_exact :
    (∀ (tr : GeodesicTracer) (r theta phi E L Q : ℝ) (dir : ℤ) (st : V8) (q : ℝ),
        initialize_photon tr r theta phi E L Q dir = some st →
        photonPrSq tr.metric r theta (-|E|) L = some q → 0 ≤ q →
        null_constraint tr.metric st = some 0) ∧
    (∀ (bh : KerrBlackHole) (start_x y theta energy : ℝ) (st : V8) (q : ℝ),
        initializeParallelRay bh start_x y theta energy = some st →
        parallelPrSq bh start_x y theta energy = some q → 0 ≤ q →
        null_constraint bh st = some 0) := by
  constructor
  · intro tr r theta phi E L Q dir st q hinit hq hq0
    have hq' := hq
    unfold photonPrSq at hq'
    rw [fdiv_eq_some] at hq'
    obtain ⟨nb, av, hnb, hav, hav0, hqv⟩ := hq'
    rw [fneg_eq_some] at hnb
    obtain ⟨bv, hBF, rfl⟩ := hnb
    have hrr : (inverse_metric_components tr.metric r theta).rr = some av := hav
    simp only [initialize_photon] at hinit
    by_cases h1 : flt (fabs (photonA tr.metric r theta)) (some 1e-12)
    · rw [if_pos h1] at hinit
      cases hinit
    · rw [if_neg h1] at hinit
      by_cases h2 : flt (photonPrSq tr.metric r theta (-|E|) L) (some (-1e-10))
      · rw [if_pos h2] at hinit
        cases hinit
      · rw [if_neg h2] at hinit
        have hmaxq : fmax (photonPrSq tr.metric r theta (-|E|) L) (some 0) = some q := by
          rw [hq, fmax_some, max_eq_left hq0]
        rw [hmaxq, fsqrt_some hq0] at hinit
        have hcomp : ∃ ttv tphiv ththv phiphiv,
            (inverse_metric_components tr.metric r theta).tt = some ttv ∧
            (inverse_metric_components tr.metric r theta).tphi = some tphiv ∧
            (inverse_metric_components tr.metric r theta).thth = some ththv ∧
            (inverse_metric_components tr.metric r theta).phiphi = some phiphiv ∧
            bv = ttv * (-|E|) ^ 2 +
              2 * tphiv * (-|E|) * photonPphiFinal tr.metric r theta (-|E|) L +
              ththv * 0 ^ 2 +
              phiphiv * photonPphiFinal tr.metric r theta (-|E|) L ^ 2 := by
          by_cases hfb : photonFallback tr.metric r theta (-|E|) L
          · have hpphF : photonPphiFinal tr.metric r theta (-|E|) L = 0 := by
              unfold photonPphiFinal
              rw [if_pos hfb]
            have hB0some : ∃ b0,
                photonB0 tr.metric r theta (-|E|) (photonPphi0 L) = some b0 := by
              have hfb' := hfb
              unfold photonFallback at hfb'
              obtain ⟨w, hw, _⟩ := flt_some_right hfb'
              rw [fdiv_eq_some] at hw
              obtain ⟨nb0, av0, hnb0, _, _, _⟩ := hw
              rw [fneg_eq_some] at hnb0
              obtain ⟨b0, hb0, _⟩ := hnb0
              exact ⟨b0, hb0⟩
            obtain ⟨b0, hb0⟩ := hB0some
            obtain ⟨ttv, tphiv, ththv, phiphiv, htt, htphi, hthth, hphiphi, _⟩ :=
              photonB0_eq_some hb0
            refine ⟨ttv, tphiv, ththv, phiphiv, htt, htphi, hthth, hphiphi, ?_⟩
            have hBF' : photonBFinal tr.metric r theta (-|E|) L =
                some (ttv * (-|E|) ^ 2) := by
              unfold photonBFinal
              rw [if_pos hfb, htt, fmul_some]
            have hbv := Option.some.inj (hBF.symm.trans hBF')
            rw [hpphF, hbv]
            ring
          · have hpphF : photonPphiFinal tr.metric r theta (-|E|) L = photonPphi0 L := by
              unfold photonPphiFinal
              rw [if_neg hfb]
            have hBF' : photonB0 tr.metric r theta (-|E|) (photonPphi0 L) = some bv := by
              have hx := hBF
              unfold photonBFinal at hx
              rwa [if_neg hfb] at hx
            obtain ⟨ttv, tphiv, ththv, phiphiv, htt, htphi, hthth, hphiphi, hbv⟩ :=
              photonB0_eq_some hBF'
            refine ⟨ttv, tphiv, ththv, phiphiv, htt, htphi, hthth, hphiphi, ?_⟩
            rw [hpphF]
            exact hbv
        obtain ⟨ttv, tphiv, ththv, phiphiv, htt, htphi, hthth, hphiphi, hbveq⟩ := hcomp
        by_cases hdir : dir < 0
        · rw [if_pos hdir, fneg_some] at hinit
          obtain rfl := Option.some.inj hinit
          show hamiltonianAt tr.metric r theta (some (-|E|)) (some (-Real.sqrt q))
            (some 0) (some (photonPphiFinal tr.metric r theta (-|E|) L)) = some 0
          rw [hamiltonianAt_some htt htphi hrr hthth hphiphi]
          congr 1
          exact null_value_zero ttv tphiv av ththv phiphiv (-|E|)
            (photonPphiFinal tr.metric r theta (-|E|) L) bv q (-Real.sqrt q) hav0 hbveq
            hqv (by rw [neg_mul_neg, Real.mul_self_sqrt hq0])
        · rw [if_neg hdir] at hinit
          obtain rfl := Option.some.inj hinit
          show hamiltonianAt tr.metric r theta (some (-|E|)) (some (Real.sqrt q))
            (some 0) (some (photonPphiFinal tr.metric r theta (-|E|) L)) = some 0
          rw [hamiltonianAt_some htt htphi hrr hthth hphiphi]
          congr 1
          exact null_value_zero ttv tphiv av ththv phiphiv (-|E|)
            (photonPphiFinal tr.metric r theta (-|E|) L) bv q (Real.sqrt q) hav0 hbveq
            hqv (Real.mul_self_sqrt hq0)
  · intro bh start_x y theta energy st q hinit hq hq0
    have hq' := hq
    unfold parallelPrSq at hq'
    rw [fdiv_eq_some] at hq'
    obtain ⟨nb, av, hnb, hav, hav0, hqv⟩ := hq'
    rw [fneg_eq_some] at hnb
    obtain ⟨bv, hBF, rfl⟩ := hnb
    have hrr : (inverse_metric_components bh (Real.sqrt (start_x ^ 2 + y ^ 2))
        theta).rr = some av := hav
    have hBF' : photonB0 bh (Real.sqrt (start_x ^ 2 + y ^ 2)) theta (-|energy|) y =
        some bv := hBF
    obtain ⟨ttv, tphiv, ththv, phiphiv, htt, htphi, hthth, hphiphi, hbv⟩ :=
      photonB0_eq_some hBF'
    simp only [initializeParallelRay] at hinit
    by_cases h1 : flt (fabs (photonA bh (Real.sqrt (start_x ^ 2 + y ^ 2)) theta))
        (some 1e-12)
    · rw [if_pos h1] at hinit
      cases hinit
    · rw [if_neg h1] at hinit
      by_cases h2 : flt (parallelPrSq bh start_x y theta energy) (some (-1e-10))
      · rw [if_pos h2] at hinit
        cases hinit
      · rw [if_neg h2] at hinit
        have hmaxq : fmax (parallelPrSq bh start_x y theta energy) (some 0) = some q := by
          rw [hq, fmax_some, max_eq_left hq0]
        rw [hmaxq, fsqrt_some hq0, fneg_some] at hinit
        obtain rfl := Option.some.inj hinit
        show hamiltonianAt bh (Real.sqrt (start_x ^ 2 + y ^ 2)) theta (some (-|energy|))
          (some (-Real.sqrt q)) (some 0) (some y) = some 0
        rw [hamiltonianAt_some htt htphi hrr hthth hphiphi]
        congr 1
        exact null_value_zero ttv tphiv av ththv phiphiv (-|energy|) y bv q
          (-Real.sqrt q) hav0 hbv hqv (by rw [neg_mul_neg, Real.mul_self_sqrt hq0])

/-- Spacetime for the C4 witness: Schwarzschild (`a = 0`). -/
def bhW : KerrBlackHole := ⟨1, 0, 1e-9⟩

/-- Tracer for the C4 witness (CosmicUniverse defaults, no perturbations). -/
def trW : GeodesicTracer := mkTracer bhW (1 / 20) [] (1 / 100) 50 (21 / 20)

theorem ginvW : inverse_metric_components bhW 4 (Real.pi / 2) =
    { tt := some (-2), tphi := some 0, rr := some (1 / 2), thth := some (1 / 16),
      phiphi := some (1 / 16), Sigma := 16, Delta := 8, safe_delta := 8,
      safe_sin2 := 1 } := by
  simp only [inverse_metric_components, bhW, safeDelta]
  rw [Real.cos_pi_div_two, Real.sin_pi_div_two]
  norm_num [fdiv]

theorem photonAW : photonA bhW 4 (Real.pi / 2) = some (1 / 2) := by
  unfold photonA
  rw [ginvW]

theorem photonB0W : photonB0 bhW 4 (Real.pi / 2) (-|(1 : ℝ)|) (photonPphi0 0) =
    some (-1) := by
  rw [show photonPphi0 (0 : ℝ) = 4 from by unfold photonPphi0; exact if_pos rfl]
  simp only [photonB0]
  rw [ginvW]
  simp only [fmul_some, fadd_some]
  norm_num

theorem noFallbackW : ¬ photonFallback bhW 4 (Real.pi / 2) (-|(1 : ℝ)|) 0 := by
  unfold photonFallback
  rw [photonB0W]
  rw [show photonA bhW 4 (Real.pi / 2) = some (1 / 2) from photonAW]
  simp only [fneg_some]
  rw [fdiv_some _ (by norm_num : (1 / 2 : ℝ) ≠ 0)]
  simp only [flt_some]
  norm_num

theorem prSqW : photonPrSq bhW 4 (Real.pi / 2) (-|(1 : ℝ)|) 0 = some 2 := by
  unfold photonPrSq
  rw [show photonBFinal bhW 4 (Real.pi / 2) (-|(1 : ℝ)|) 0 =
      some (-1) from by unfold photonBFinal; rw [if_neg noFallbackW]; exact photonB0W]
  rw [photonAW]
  simp only [fneg_some]
  rw [fdiv_some _ (by norm_num : (1 / 2 : ℝ) ≠ 0)]
  norm_num

/-- The state returned by `initialize_photon` for the C4 witness. -/
def stW : V8 :=
  ⟨some 0, some 4, some (Real.pi / 2), some 0, some (-1), some (-Real.sqrt 2), some 0,
   some 4⟩

theorem initW : initialize_photon trW 4 (Real.pi / 2) 0 1 0 0 (-1) = some stW := by
  have hc1 : ¬ flt (fabs (photonA bhW 4 (Real.pi / 2))) (some 1e-12) := by
    rw [photonAW]
    simp only [fabs_some, flt_some]
    rw [abs_of_pos (by norm_num : (0 : ℝ) < 1 / 2)]
    norm_num
  have hc2 : ¬ flt (photonPrSq bhW 4 (Real.pi / 2) (-|(1 : ℝ)|) 0) (some (-1e-10)) := by
    rw [prSqW]
    simp only [flt_some]
    norm_num
  simp only [initialize_photon]
  rw [show trW.metric = bhW from rfl]
  rw [if_neg hc1, if_neg hc2, prSqW]
  rw [fmax_some, show max (2 : ℝ) 0 = 2 from max_eq_left (by norm_num)]
  rw [fsqrt_some (by norm_num : (0 : ℝ) ≤ 2)]
  rw [if_pos (by norm_num : (-1 : ℤ) < 0), fneg_some]
  rw [show photonPphiFinal bhW 4 (Real.pi / 2) (-|(1 : ℝ)|) 0 = 4 from by
    unfold photonPphiFinal
    rw [if_neg noFallbackW]
    unfold photonPphi0
    exact if_pos rfl]
  norm_num [stW]

theorem sqrt16 : Real.sqrt ((4 : ℝ) ^ 2 + 0 ^ 2) = 4 := by
  rw [show ((4 : ℝ) ^ 2 + 0 ^ 2) = 4 ^ 2 by norm_num]
  exact Real.sqrt_sq (by norm_num)

theorem photonB0Wy : photonB0 bhW 4 (Real.pi / 2) (-|(1 : ℝ)|) 0 = some (-2) := by
  simp only [photonB0]
  rw [ginvW]
  simp only [fmul_some, fadd_some]
  norm_num

theorem prSqWy : parallelPrSq bhW 4 0 (Real.pi / 2) 1 = some 4 := by
  unfold parallelPrSq parallelB
  rw [sqrt16, photonB0Wy, photonAW]
  simp only [fneg_some]
  rw [fdiv_some _ (by norm_num : (1 / 2 : ℝ) ≠ 0)]
  norm_num

/-- The state returned by `_initialize_parallel_ray` for the C4 witness. -/
def stW2 : V8 :=
  ⟨some 0, some 4, some (Real.pi / 2), some 0, some (-1), some (-2), some 0, some 0⟩

theorem initW2 : initializeParallelRay bhW 4 0 (Real.pi / 2) 1 = some stW2 := by
  have hc1 : ¬ flt (fabs (photonA bhW 4 (Real.pi / 2))) (some 1e-12) := by
    rw [photonAW]
    simp only [fabs_some, flt_some]
    rw [abs_of_pos (by norm_num : (0 : ℝ) < 1 / 2)]
    norm_num
  have hc2 : ¬ flt (parallelPrSq bhW 4 0 (Real.pi / 2) 1) (some (-1e-10)) := by
    rw [prSqWy]
    simp only [flt_some]
    norm_num
  simp only [initializeParallelRay]
  rw [sqrt16]
  rw [if_neg hc1, if_neg hc2, prSqWy]
  rw [fmax_some, show max (4 : ℝ) 0 = 4 from max_eq_left (by norm_num)]
  rw [fsqrt_some (by norm_num : (0 : ℝ) ≤ 4)]
  rw [show Real.sqrt 4 = 2 from by
    rw [show (4 : ℝ) = 2 ^ 2 by norm_num]
    exact Real.sqrt_sq (by norm_num)]
  rw [fneg_some]
  rw [show arctan2 0 4 = 0 from by
    unfold arctan2
    rw [if_pos (by norm_num : (0 : ℝ) < 4)]
    norm_num [Real.arctan_zero]]
  norm_num [stW2]

/-- Witness for the amended C4 theorem: both initializers at concrete
well-posed inputs return states on which the null constraint vanishes
exactly. -/
theorem initializer_null_exact_witness :
    null_constraint trW.metric stW = some 0 ∧ null_constraint bhW stW2 = some 0 :=
  ⟨initializer_null_exact.1 trW 4 (Real.pi / 2) 0 1 0 0 (-1) stW 2 initW prSqW
      (by norm_num),
   initializer_null_exact.2 bhW 4 0 (Real.pi / 2) 1 stW2 4 initW2 prSqWy (by norm_num)⟩

/-- Extremal spacetime (`a = M = 1`) for the C4 counterexample. -/
def bhC4 : KerrBlackHole := ⟨1, 1, 1e-9⟩

/-- Tracer for the C4 counterexample (CosmicUniverse defaults). -/
def trC4 : GeodesicTracer := mkTracer bhC4 (1 / 20) [] (1 / 100) 50 (21 / 20)

/-- The (unvalidated, negative) radial coordinate of the C4 counterexample. -/
def rC4 : ℝ := -(1 / 100000000)

theorem ginvC4 : inverse_metric_components bhC4 rC4 (Real.pi / 2) =
    { tt := some ((2 * 10 ^ 24 - 10 ^ 16 - 1) / (10 ^ 16 + 2 * 10 ^ 8 + 1)),
      tphi := some ((2 * 10 ^ 24) / (10 ^ 16 + 2 * 10 ^ 8 + 1)),
      rr := some (10 ^ 16 + 2 * 10 ^ 8 + 1),
      thth := some (10 ^ 16),
      phiphi := some ((2 * 10 ^ 24 + 10 ^ 16) / (10 ^ 16 + 2 * 10 ^ 8 + 1)),
      Sigma := 1 / 10 ^ 16,
      Delta := (10 ^ 16 + 2 * 10 ^ 8 + 1) / 10 ^ 16,
      safe_delta := (10 ^ 16 + 2 * 10 ^ 8 + 1) / 10 ^ 16,
      safe_sin2 := 1 } := by
  have habs : |(10000000200000001 : ℝ) / 10000000000000000| =
      10000000200000001 / 10000000000000000 := abs_of_pos (by norm_num)
  simp only [inverse_metric_components, bhC4, rC4, safeDelta]
  rw [Real.cos_pi_div_two, Real.sin_pi_div_two]
  norm_num [fdiv, habs]

theorem photonAC4 : photonA bhC4 rC4 (Real.pi / 2) =
    some (10 ^ 16 + 2 * 10 ^ 8 + 1) := by
  unfold photonA
  rw [ginvC4]

theorem fallbackC4 : photonFallback bhC4 rC4 (Real.pi / 2) (-|(1 / 100 : ℝ)|) 0 := by
  unfold photonFallback
  rw [show photonPphi0 (0 : ℝ) = 4 from by unfold photonPphi0; exact if_pos rfl]
  simp only [photonB0]
  rw [ginvC4, photonAC4]
  simp only [fmul_some, fadd_some, fneg_some]
  rw [fdiv_some _ (by norm_num : (10 ^ 16 + 2 * 10 ^ 8 + 1 : ℝ) ≠ 0)]
  simp only [flt_some]
  rw [abs_of_pos (by norm_num : (0 : ℝ) < 1 / 100)]
  norm_num

/-- The clamped (slightly negative) `pr_sq` of the C4 counterexample. -/
def qC4 : ℝ :=
  -((2 * 10 ^ 24 - 10 ^ 16 - 1) / (10 ^ 4 * (10 ^ 16 + 2 * 10 ^ 8 + 1) ^ 2))

theorem prSqC4 : photonPrSq bhC4 rC4 (Real.pi / 2) (-|(1 / 100 : ℝ)|) 0 = some qC4 := by
  unfold photonPrSq
  rw [show photonBFinal bhC4 rC4 (Real.pi / 2) (-|(1 / 100 : ℝ)|) 0 =
      some ((2 * 10 ^ 24 - 10 ^ 16 - 1) / (10 ^ 16 + 2 * 10 ^ 8 + 1) *
        (-|(1 / 100 : ℝ)|) ^ 2) from by
    unfold photonBFinal
    rw [if_pos fallbackC4]
    rw [show (inverse_metric_components bhC4 rC4 (Real.pi / 2)).tt =
        some ((2 * 10 ^ 24 - 10 ^ 16 - 1) / (10 ^ 16 + 2 * 10 ^ 8 + 1)) from by
      rw [ginvC4]]
    rw [fmul_some]]
  rw [photonAC4]
  simp only [fneg_some]
  rw [fdiv_some _ (by norm_num : (10 ^ 16 + 2 * 10 ^ 8 + 1 : ℝ) ≠ 0)]
  unfold qC4
  rw [abs_of_pos (by norm_num : (0 : ℝ) < 1 / 100)]
  norm_num

/-- The state returned by `initialize_photon` for the C4 counterexample: the
negative `pr_sq` was clamped to zero, so `p_r = 0` while `p_φ` fell back to
zero. -/
def stC4 : V8 :=
  ⟨some 0, some rC4, some (Real.pi / 2), some 0, some (-(1 / 100)), some 0, some 0,
   some 0⟩

theorem initC4 : initialize_photon trC4 rC4 (Real.pi / 2) 0 (1 / 100) 0 0 (-1) =
    some stC4 := by
  have hc1 : ¬ flt (fabs (photonA bhC4 rC4 (Real.pi / 2))) (some 1e-12) := by
    rw [photonAC4]
    simp only [fabs_some, flt_some]
    rw [abs_of_pos (by norm_num : (0 : ℝ) < 10 ^ 16 + 2 * 10 ^ 8 + 1)]
    norm_num
  have hc2 : ¬ flt (photonPrSq bhC4 rC4 (Real.pi / 2) (-|(1 / 100 : ℝ)|) 0)
      (some (-1e-10)) := by
    rw [prSqC4]
    simp only [flt_some]
    unfold qC4
    norm_num
  simp only [initialize_photon]
  rw [show trC4.metric = bhC4 from rfl]
  rw [if_neg hc1, if_neg hc2, prSqC4]
  rw [fmax_some, show max qC4 0 = 0 from max_eq_right (by unfold qC4; norm_num)]
  rw [fsqrt_some (le_refl (0 : ℝ)), Real.sqrt_zero]
  rw [if_pos (by norm_num : (-1 : ℤ) < 0), fneg_some]
  rw [show photonPphiFinal bhC4 rC4 (Real.pi / 2) (-|(1 / 100 : ℝ)|) 0 = 0 from by
    unfold photonPphiFinal
    rw [if_pos fallbackC4]]
  norm_num [stC4]

theorem nullC4 : fgt (fabs (null_constraint trC4.metric stC4))
    (some trC4.null_tolerance) := by
  rw [show trC4.metric = bhC4 from rfl, show trC4.null_tolerance = (1 / 100 : ℝ) from rfl]
  rw [show null_constraint bhC4 stC4 = hamiltonianAt bhC4 rC4 (Real.pi / 2)
      (some (-(1 / 100))) (some 0) (some 0) (some 0) from rfl]
  rw [hamiltonianAt_some (by rw [ginvC4]) (by rw [ginvC4]) (by rw [ginvC4])
    (by rw [ginvC4]) (by rw [ginvC4])]
  simp only [fabs_some]
  simp only [fgt, flt]
  rw [abs_of_pos (by norm_num : (0 : ℝ) <
    1 / 2 * ((2 * 10 ^ 24 - 10 ^ 16 - 1) / (10 ^ 16 + 2 * 10 ^ 8 + 1) *
        (-(1 / 100) * -(1 / 100)) +
      2 * ((2 * 10 ^ 24) / (10 ^ 16 + 2 * 10 ^ 8 + 1)) * -(1 / 100) * 0 +
      (10 ^ 16 + 2 * 10 ^ 8 + 1) * (0 * 0) + 10 ^ 16 * (0 * 0) +
      (2 * 10 ^ 24 + 10 ^ 16) / (10 ^ 16 + 2 * 10 ^ 8 + 1) * (0 * 0)))]
  norm_num

/-- Counterexample to claim C4: at `M = a = 1`, position
`(r, θ, φ) = (-1e-8, π/2, 0)` with `E = 0.01`, `initialize_photon` returns a
state (the slightly negative `pr_sq ≈ -2e-12` is within the `-1e-10`
tolerance and is clamped to zero), yet the returned state's null-constraint
magnitude is about `1e4`, far above `null_tolerance = 1e-2`. -/
theorem initialize_photon_violates_tolerance :
    initialize_photon trC4 rC4 (Real.pi / 2) 0 (1 / 100) 0 0 (-1) = some stC4 ∧
    fgt (fabs (null_constraint trC4.metric stC4)) (some trC4.null_tolerance) :=
  ⟨initC4, nullC4⟩
